import Mathlib

/-!
Verification development for `bench.cc` (parallel-hashmap benchmark harness)

Shallow embedding of the benchmark driver:

* `RSU`, the random unique sequence generator (`permuteQPR`, `RSU.next`);
* the partitioned insertion driver (`_fill_random_inner`, `_fill_random_inner_thr`,
  `_fill_random_inner_mt`, `total_num_keys`, `_fill_random2`);
* the memory sampler `memlog`.

Machine integers are natural numbers or integers with the wrap-around written out:
`unsigned int` is arithmetic modulo `4294967296`, `size_t` and `uint64_t` are arithmetic
modulo `18446744073709551616`, `int64_t` is read in two's complement by `toInt64`.
-/

namespace Bench

/-! ## Definitions -/

/-! ### Machine integers -/

/-- The `int64_t` value of a 64-bit pattern (two's complement reading of a `uint64_t`). -/
def toInt64 (n : Nat) : Int :=
  if n % 18446744073709551616 < 9223372036854775808 then ((n % 18446744073709551616 : Nat) : Int)
  else ((n % 18446744073709551616 : Nat) : Int) - 18446744073709551616

/-- The `uint64_t` (`size_t`) pattern of an `int64_t` value. -/
def toU64 (x : Int) : Nat := (x % 18446744073709551616).toNat

/-- The `int64_t` value an integer result is stored as: the two's complement wrap. -/
def wrapInt64 (x : Int) : Int := toInt64 (toU64 x)

/-- Subtraction of two `uint64_t` (`size_t`) values: wraps modulo `2^64`. -/
def u64sub (a b : Nat) : Nat := (a + 18446744073709551616 - b % 18446744073709551616) % 18446744073709551616

/-! ### The generator `RSU` (lines 61-87) -/

/-- The constant `prime` of `permuteQPR`. -/
def prime : Nat := 4294967291

/-- The function `RSU::permuteQPR`: the product is taken in 64 bits, so it is exact. -/
def permuteQPR (x : Nat) : Nat :=
  if x ≥ prime then x
  else
    let residue := (x * x) % prime
    if x ≤ prime / 2 then residue else prime - residue

/-- The generator state: the two `unsigned int` members of `RSU`. -/
structure RSU where
  m_index : Nat
  m_intermediateOffset : Nat
deriving DecidableEq, Repr

/-- The constructor `RSU(seedBase, seedOffset)`; the additions wrap modulo `2^32`. -/
def RSU.new (seedBase seedOffset : Nat) : RSU :=
  { m_index := permuteQPR ((permuteQPR seedBase + 0x682f0161) % 4294967296),
    m_intermediateOffset := permuteQPR ((permuteQPR seedOffset + 0x46790905) % 4294967296) }

/-- The method `RSU::next`: the returned value and the state after the post-increment of `m_index`. -/
def RSU.next (r : RSU) : Nat × RSU :=
  (permuteQPR (((permuteQPR r.m_index + r.m_intermediateOffset) % 4294967296) ^^^ 0x5bf03635),
   { r with m_index := (r.m_index + 1) % 4294967296 })

/-- The values returned by `n` successive calls of `next`, in call order. -/
def RSU.outputs : Nat → RSU → List Nat
  | 0, _ => []
  | n + 1, r => r.next.1 :: RSU.outputs n r.next.2

/-- The generator state after `n` calls of `next`. -/
def RSU.advance : Nat → RSU → RSU
  | 0, r => r
  | n + 1, r => RSU.advance n r.next.2

/-- Square-and-multiply modular power, used to certify that `prime` is a prime number. -/
def powModAux : Nat → Nat → Nat → Nat → Nat → Nat
  | 0, _, _, _, r => r
  | f + 1, a, n, m, r =>
    if n = 0 then r else powModAux f (a * a % m) (n / 2) m (if n % 2 = 1 then r * a % m else r)

/-! ### The insertion drivers (lines 141-250) -/

/-- Modelled from the spec: the map collaborator `hash_t` (`MAPNAME<int64_t, int64_t>`), whose
implementation is not part of `bench.cc`. It is kept as the list of its keys, every value stored
being `0`; its `insert(key, value)` is `List.insert`, which leaves a key that is already present
alone. Its `subcnt()`, hasher and `subidx(hash)` are parameters of the routines below. -/
abbrev HT := List Nat

/-- The state the insertion routines work on: the map `hash` and the counter array `num_keys`
of `int64_t` slots, read at the indices `0..15`. -/
structure St where
  hash : HT
  num_keys : Nat → Int

/-- An empty map and zeroed counters: the state at program start. -/
def St.empty : St := { hash := [], num_keys := fun _ => 0 }

/-- The two statements `hash.insert(value_type(key, 0)); ++num_keys[w];`. The slot is an
`int64_t`: an increment past `INT64_MAX` wraps to `INT64_MIN`, as on the two's complement
targets the program is built for. -/
def St.insertCounted (st : St) (w key : Nat) : St :=
  { hash := st.hash.insert key,
    num_keys := Function.update st.num_keys w (wrapInt64 (st.num_keys w + 1)) }

/-- The loop of `_fill_random_inner`, for `n` remaining iterations. -/
def fillInnerLoop : Nat → St → RSU → St × RSU
  | 0, st, rsu => (st, rsu)
  | n + 1, st, rsu => fillInnerLoop n (st.insertCounted 0 rsu.next.1) rsu.next.2

/-- The function `_fill_random_inner(cnt, hash, rsu)`: the loop body runs `cnt` times,
not at all when `cnt` is negative. -/
def _fill_random_inner (cnt : Int) (st : St) (rsu : RSU) : St × RSU :=
  fillInnerLoop cnt.toNat st rsu

/-- The one way the routines can go wrong: an integer division by zero. -/
inductive Fault where
  | divisionByZero
deriving DecidableEq, Repr

/-- The task descriptor `TD` without its map reference, which is the `St` passed along.
The two `int64_t` ordinals are never negative in this program. -/
structure TD where
  thread_idx : Nat
  num_threads : Nat
  cnt : Int
  rsu : RSU

/-- The ownership test `idx / modulo == td.thread_idx` of `_fill_random_inner_thr`. -/
def owns (modulo thread_idx idx : Nat) : Bool := idx / modulo == thread_idx

/-- The loop of `_fill_random_inner_thr`, for `n` remaining iterations. The division
`idx / modulo` is undefined for `modulo = 0`. -/
def fillThrLoop (hasher subidx : Nat → Nat) (modulo thread_idx : Nat) : Nat → St → RSU → Except Fault St
  | 0, st, _ => .ok st
  | n + 1, st, rsu =>
    let key := rsu.next.1
    let hash := hasher key
    let idx := subidx hash
    if modulo = 0 then .error Fault.divisionByZero
    else if owns modulo thread_idx idx then
      fillThrLoop hasher subidx modulo thread_idx n (st.insertCounted thread_idx key) rsu.next.2
    else
      fillThrLoop hasher subidx modulo thread_idx n st rsu.next.2

/-- The function `_fill_random_inner_thr(td)` run on the shared state; `subcnt` is the value of
`td.hash.subcnt()`, `hasher` and `subidx` are the map's hash and subtable-index functions. -/
def _fill_random_inner_thr (subcnt : Nat) (hasher subidx : Nat → Nat) (td : TD) (st : St) : Except Fault St :=
  if td.num_threads = 0 then .error Fault.divisionByZero
  else
    let modulo := subcnt / td.num_threads
    fillThrLoop hasher subidx modulo td.thread_idx td.cnt.toNat st td.rsu

/-- The descriptor `TD<HT> td {i, num_threads, cnt, hash, rsu}` built for worker `i`. -/
def mkTD (i : Nat) (cnt : Int) (rsu : RSU) : TD :=
  { thread_idx := i, num_threads := 8, cnt := cnt, rsu := rsu }

/-- The workers with the given ordinals, each run to completion in turn. -/
def runWorkers (subcnt : Nat) (hasher subidx : Nat → Nat) (cnt : Int) (rsu : RSU) : List Nat → St → Except Fault St
  | [], st => .ok st
  | i :: rest, st =>
    match _fill_random_inner_thr subcnt hasher subidx (mkTD i cnt rsu) st with
    | .ok st1 => runWorkers subcnt hasher subidx cnt rsu rest st1
    | .error e => .error e

/-- The function `_fill_random_inner_mt(cnt, hash, rsu)`: eight workers, each on a copy of `rsu`,
and the caller's `rsu` stepped `cnt` times. The result is the state after the joins. -/
def _fill_random_inner_mt (subcnt : Nat) (hasher subidx : Nat → Nat) (cnt : Int) (st : St) (rsu : RSU) :
    Except Fault (St × RSU) :=
  match runWorkers subcnt hasher subidx cnt rsu (List.range 8) st with
  | .ok st1 => .ok (st1, RSU.advance cnt.toNat rsu)
  | .error e => .error e

/-- The function `total_num_keys()`: a `size_t` sum of the sixteen slots. -/
def total_num_keys (num_keys : Nat → Int) : Nat :=
  (List.range 16).foldl (fun n i => (n + toU64 (num_keys i)) % 18446744073709551616) 0

/-- What `_fill_random2` leaves behind: map and counters, the generator, the globals `loop_idx`
and `inner_cnt`, and the counts printed by `out` after each super-step. -/
structure Fill2Result where
  st : St
  rsu : RSU
  loop_idx : Int
  inner_cnt : Int
  printed : List Int

/-- The super-step loop of `_fill_random2`, for `n` remaining iterations; `parallel` is the
outcome of the `strcmp` of the map name with `absl::parallel_flat_hash_map`. -/
def fill2Loop (parallel : Bool) (subcnt : Nat) (hasher subidx : Nat → Nat) (inner_cnt : Int) :
    Nat → Fill2Result → Except Fault Fill2Result
  | 0, r => .ok r
  | n + 1, r =>
    let step : Except Fault (St × RSU) :=
      if parallel then _fill_random_inner_mt subcnt hasher subidx inner_cnt r.st r.rsu
      else .ok (_fill_random_inner inner_cnt r.st r.rsu)
    match step with
    | .ok (st1, rsu1) =>
      fill2Loop parallel subcnt hasher subidx inner_cnt n
        { st := st1, rsu := rsu1, loop_idx := r.loop_idx + 1, inner_cnt := r.inner_cnt,
          printed := r.printed ++ [toInt64 (total_num_keys st1.num_keys)] }
    | .error e => .error e

/-- The function `_fill_random2(cnt, hash)`. -/
def _fill_random2 (parallel : Bool) (subcnt : Nat) (hasher subidx : Nat → Nat) (cnt : Int) (st : St) :
    Except Fault Fill2Result :=
  let seed := 76687
  let rsu := RSU.new seed ((seed + 1) % 4294967296)
  let num_loops : Int := 10
  let inner_cnt := cnt.tdiv num_loops
  let st0 : St := { st with num_keys := fun i => if i < 16 then 0 else st.num_keys i }
  fill2Loop parallel subcnt hasher subidx inner_cnt num_loops.toNat
    { st := st0, rsu := rsu, loop_idx := 0, inner_cnt := inner_cnt, printed := [] }

/-! ### Auxiliary notions for the statements about the drivers -/

/-- The value of an `int64_t` counter slot holding `v` after `n` increments `++`. -/
def bump : Nat → Int → Int
  | 0, v => v
  | n + 1, v => bump n (wrapInt64 (v + 1))

/-- The keys of a map after inserting the keys `ks`, in order, into a map with keys `h`. -/
def insertAll (h : List Nat) (ks : List Nat) : List Nat :=
  ks.foldl (fun acc k => acc.insert k) h

/-- The keys among `ks` that pass the ownership test of worker `w`. -/
def ownedKeys (hasher subidx : Nat → Nat) (modulo w : Nat) (ks : List Nat) : List Nat :=
  ks.filter (fun k => owns modulo w (subidx (hasher k)))

/-- The keys among `ks` that pass the ownership test of one of the eight workers. -/
def acceptedKeys (hasher subidx : Nat → Nat) (modulo : Nat) (ks : List Nat) : List Nat :=
  ks.filter (fun k => (List.range 8).any (fun w => owns modulo w (subidx (hasher k))))

/-- Worker `w` of `_fill_random_inner_mt` run on its own, on an empty map and zeroed counters. -/
def soloRun (subcnt : Nat) (hasher subidx : Nat → Nat) (cnt : Int) (rsu : RSU) (w : Nat) : Except Fault St :=
  _fill_random_inner_thr subcnt hasher subidx (mkTD w cnt rsu) { hash := [], num_keys := fun _ => 0 }

/-- The keys worker `w` inserts: the content of the map after its run on an empty map. -/
def workerKeys (subcnt : Nat) (hasher subidx : Nat → Nat) (cnt : Int) (rsu : RSU) (w : Nat) : List Nat :=
  match soloRun subcnt hasher subidx cnt rsu w with
  | .ok s => s.hash
  | .error _ => []

/-! ### Double precision arithmetic of the sampler -/

/-- A finite non-negative `double`, kept as the exact fraction `num / den`. -/
structure Dbl where
  num : Nat
  den : Nat
deriving DecidableEq, Repr

/-- The number of binary digits of `n`, with `fuel` at least that number. -/
def bitLen : Nat → Nat → Nat
  | 0, _ => 0
  | fuel + 1, n => if n = 0 then 0 else bitLen fuel (n / 2) + 1

/-- The fraction `n / d` (`d > 0`) rounded to the nearest value with a 53-bit significand, ties to
the even significand: the rounding of every `double` operation. No operand of the sampler
leaves the exponent range. -/
def roundFrac (n d : Nat) : Dbl :=
  if n = 0 then { num := 0, den := 1 }
  else
    let ln := bitLen n n
    let ld := bitLen d d
    let a := (53 + ld) - ln
    let b := ln - (53 + ld)
    let N := n * 2 ^ a
    let D := d * 2 ^ b
    let b1 := if N / D ≥ 2 ^ 53 then b + 1 else b
    let D1 := d * 2 ^ b1
    let q := N / D1
    let r := N % D1
    let m := if 2 * r > D1 ∨ (2 * r = D1 ∧ q % 2 = 1) then q + 1 else q
    { num := m * 2 ^ b1, den := 2 ^ a }

/-- The conversion `(double)n` of a non-negative integer. -/
def Dbl.ofNat (n : Nat) : Dbl := roundFrac n 1

/-- The quotient `x / y` of two doubles, `y` not zero. -/
def Dbl.div (x y : Dbl) : Dbl := roundFrac (x.num * y.den) (x.den * y.num)

/-- The comparison `x > c` of two doubles. -/
def Dbl.gt (x c : Dbl) : Bool := decide (c.num * x.den < x.num * c.den)

/-- The literal `0.03`. -/
def c003 : Dbl := roundFrac 3 100

/-- The literal `0.01`. -/
def c001 : Dbl := roundFrac 1 100

/-- The test `(double)x / y > c` for an integer `x` and a `uint64_t` `y`. Dividing by `0.0` gives
`+inf` for `x > 0`, a NaN for `x = 0` and `-inf` for `x < 0`; of these only `+inf` compares
greater. A quotient with `x <= 0` is not positive. -/
def fdivGt (x : Int) (y : Nat) (c : Dbl) : Bool :=
  if y = 0 then decide (0 < x)
  else if x ≤ 0 then false
  else Dbl.gt (Dbl.div (Dbl.ofNat x.toNat) (Dbl.ofNat y)) c

/-! ### The sampler `memlog` (lines 285-316) -/

/-- The function `_abs` on `int64_t`; the negation wraps for the least value. -/
def _abs (x : Int) : Int := if x < 0 then toInt64 (toU64 (-x)) else x

/-- One `outmem` record: the count printed with `%lld` and the byte count. -/
structure Sample where
  count : Int
  bytes : Nat
deriving DecidableEq, Repr

/-- The `outmem` call a record comes from: line 290 (before the loop), line 301 (the record of
the previous reading), line 302 (threshold branch) or line 308 (loop-index branch). -/
inductive Origin where
  | initial
  | bracket
  | threshold
  | loopIndex
deriving DecidableEq, Repr

/-- The locals of `memlog` that live across iterations. -/
structure MemlogState where
  nbytes_old_out : Nat
  nbytes_old : Nat
  last_loop : Int
deriving DecidableEq, Repr

/-- What one iteration reads: `GetProcessMemoryUsed()`, `total_num_keys()` and `loop_idx`. -/
structure Poll where
  nbytes : Nat
  total : Nat
  loop_idx : Int
deriving DecidableEq, Repr

/-- The first disjunct of line 297: change against the last emitted value above `0.03`. -/
def coarseCond (st : MemlogState) (nbytes : Nat) : Bool :=
  fdivGt (_abs (toInt64 (u64sub nbytes st.nbytes_old_out))) st.nbytes_old_out c003

/-- The second disjunct, line 298: change against the previous reading above `0.01`. -/
def fineCond (st : MemlogState) (nbytes : Nat) : Bool :=
  fdivGt (_abs (toInt64 (u64sub nbytes st.nbytes_old))) st.nbytes_old c001

/-- The condition of line 297-298. -/
def thresholdCond (st : MemlogState) (nbytes : Nat) : Bool :=
  coarseCond st nbytes || fineCond st nbytes

/-- The condition of line 300: the difference is a `uint64_t` and is converted as such. -/
def jumpCond (st : MemlogState) (nbytes : Nat) : Bool :=
  fdivGt ((u64sub nbytes st.nbytes_old : Nat) : Int) st.nbytes_old c003

/-- One iteration of the `while` loop of `memlog`: the records written and the new locals. -/
def memlogPoll (st : MemlogState) (p : Poll) : List (Origin × Sample) × MemlogState :=
  if thresholdCond st p.nbytes then
    ((if jumpCond st p.nbytes then
        [(Origin.bracket, { count := toInt64 (u64sub p.total 1), bytes := st.nbytes_old })]
      else []) ++
      [(Origin.threshold, { count := toInt64 p.total, bytes := p.nbytes })],
     { nbytes_old_out := p.nbytes, nbytes_old := p.nbytes, last_loop := p.loop_idx })
  else if p.loop_idx > st.last_loop then
    ([(Origin.loopIndex, { count := toInt64 p.total, bytes := p.nbytes })],
     { nbytes_old_out := p.nbytes, nbytes_old := p.nbytes, last_loop := p.loop_idx })
  else
    ([], { nbytes_old_out := st.nbytes_old_out, nbytes_old := p.nbytes, last_loop := st.last_loop })

/-- The iterations of the loop over the given polls: records written and final locals. -/
def memlogLoop : List Poll → MemlogState → List (Origin × Sample) × MemlogState
  | [], st => ([], st)
  | p :: ps, st =>
    ((memlogPoll st p).1 ++ (memlogLoop ps (memlogPoll st p).2).1,
     (memlogLoop ps (memlogPoll st p).2).2)

/-- The locals of `memlog` on entry to the loop, from the two readings of lines 288 and 289. -/
def memlogInit (first second : Nat) : MemlogState :=
  { nbytes_old_out := first, nbytes_old := second, last_loop := 0 }

/-- The function `memlog`: the whole trace, for the two readings taken before the loop and the
polls made until `all_done` is seen. -/
def memlog (first second : Nat) (polls : List Poll) : List (Origin × Sample) :=
  (Origin.initial, { count := 0, bytes := second }) :: (memlogLoop polls (memlogInit first second)).1

/-- The property of a trace: two adjacent records differ unless the later one comes from the
loop-index branch. -/
def AdjacentDistinct : List (Origin × Sample) → Prop
  | [] => True
  | [_] => True
  | a :: b :: rest => (b.1 ≠ Origin.loopIndex → a.2 ≠ b.2) ∧ AdjacentDistinct (b :: rest)

/-- Four polls of a sample run: a jump to 1040 bytes, then three small steps. -/
def samplePolls : List Poll :=
  [{ nbytes := 1040, total := 5, loop_idx := 0 },
   { nbytes := 1050, total := 6, loop_idx := 0 },
   { nbytes := 1060, total := 6, loop_idx := 0 },
   { nbytes := 1070, total := 6, loop_idx := 0 }]

/-- The poll that follows `samplePolls`: 1080 bytes, more than 3% above the 1040 last written. -/
def samplePoll : Poll := { nbytes := 1080, total := 7, loop_idx := 0 }

/-! ## Theorems -/

/-! ### Primality of the modulus -/

theorem powModAux_spec (f : Nat) : ∀ a n m r : Nat, n < 2 ^ f →
    powModAux f a n m r % m = (r * a ^ n) % m := by
  induction f with
  | zero =>
    intro a n m r h
    have : n = 0 := by simpa using h
    subst this
    simp [powModAux]
  | succ f ih =>
    intro a n m r h
    unfold powModAux
    by_cases hn : n = 0
    · subst hn; simp
    · rw [if_neg hn, ih _ _ _ _ (by omega)]
      have hdecomp : a ^ n = (a * a) ^ (n / 2) * a ^ (n % 2) := by
        rw [← pow_two, ← pow_mul, ← pow_add, Nat.div_add_mod]
      rw [hdecomp]
      rcases Nat.mod_two_eq_zero_or_one n with h2 | h2
      · rw [h2]
        simp only [pow_zero, mul_one, one_ne_zero, ↓reduceIte, zero_ne_one]
        rw [Nat.mul_mod, Nat.pow_mod, Nat.mod_mod, ← Nat.pow_mod, ← Nat.mul_mod]
      · rw [h2]
        simp only [pow_one, ↓reduceIte]
        rw [Nat.mul_mod, Nat.pow_mod, Nat.mod_mod, Nat.mod_mod, ← Nat.pow_mod, ← Nat.mul_mod]
        ring_nf

theorem two_pow_zmod (k v : Nat) (hk : k < 2 ^ 64)
    (h : powModAux 64 2 k 4294967291 1 % 4294967291 = v % 4294967291) :
    (2 : ZMod 4294967291) ^ k = (v : ZMod 4294967291) := by
  rw [powModAux_spec 64 2 k 4294967291 1 hk, one_mul] at h
  have h2 : ((2 ^ k : Nat) : ZMod 4294967291) = (v : ZMod 4294967291) :=
    (ZMod.natCast_eq_natCast_iff _ _ _).2 h
  simpa using h2

theorem prime_22605091 : Nat.Prime 22605091 := by norm_num

theorem one_ne_of_lt (v : Nat) (h1 : 1 < v) (h2 : v < 4294967291) :
    (v : ZMod 4294967291) ≠ 1 := by
  intro h
  have h3 : ((v : Nat) : ZMod 4294967291) = ((1 : Nat) : ZMod 4294967291) := by simpa using h
  have h4 := (ZMod.natCast_eq_natCast_iff _ _ _).1 h3
  unfold Nat.ModEq at h4
  rw [Nat.mod_eq_of_lt h2] at h4
  omega

theorem prime_is_prime : Nat.Prime prime := by
  unfold prime
  apply lucas_primality 4294967291 (2 : ZMod 4294967291)
  · have := two_pow_zmod (4294967291 - 1) 1 (by norm_num) (by decide)
    simpa using this
  · intro q hq hdvd
    have h1 : (4294967291 - 1 : ℕ) = 2 * (5 * (19 * 22605091)) := by norm_num
    have hcases : q = 2 ∨ q = 5 ∨ q = 19 ∨ q = 22605091 := by
      rw [h1] at hdvd
      rcases (Nat.Prime.dvd_mul hq).1 hdvd with h | h
      · exact Or.inl ((Nat.prime_dvd_prime_iff_eq hq (by norm_num)).1 h)
      rcases (Nat.Prime.dvd_mul hq).1 h with h | h
      · exact Or.inr (Or.inl ((Nat.prime_dvd_prime_iff_eq hq (by norm_num)).1 h))
      rcases (Nat.Prime.dvd_mul hq).1 h with h | h
      · exact Or.inr (Or.inr (Or.inl ((Nat.prime_dvd_prime_iff_eq hq (by norm_num)).1 h)))
      · exact Or.inr (Or.inr (Or.inr ((Nat.prime_dvd_prime_iff_eq hq prime_22605091).1 h)))
    rcases hcases with rfl | rfl | rfl | rfl
    · rw [two_pow_zmod ((4294967291 - 1) / 2) 4294967290 (by norm_num) (by decide)]
      exact one_ne_of_lt _ (by norm_num) (by norm_num)
    · rw [two_pow_zmod ((4294967291 - 1) / 5) 149005400 (by norm_num) (by decide)]
      exact one_ne_of_lt _ (by norm_num) (by norm_num)
    · rw [two_pow_zmod ((4294967291 - 1) / 19) 81549662 (by norm_num) (by decide)]
      exact one_ne_of_lt _ (by norm_num) (by norm_num)
    · rw [two_pow_zmod ((4294967291 - 1) / 22605091) 1073745729 (by norm_num) (by decide)]
      exact one_ne_of_lt _ (by norm_num) (by norm_num)

/-! ### `permuteQPR` is a bijection of the `unsigned int` range -/

theorem cast_eq_of_lt (x y : Nat) (hx : x < prime) (hy : y < prime)
    (h : (x : ZMod prime) = (y : ZMod prime)) : x = y := by
  have h4 := (ZMod.natCast_eq_natCast_iff _ _ _).1 h
  unfold Nat.ModEq at h4
  rwa [Nat.mod_eq_of_lt hx, Nat.mod_eq_of_lt hy] at h4

theorem sq_mod_eq (x y : Nat) (hx : x < prime) (hy : y < prime)
    (h : x * x % prime = y * y % prime) : x = y ∨ x + y = prime ∨ (x = 0 ∧ y = 0) := by
  haveI : Fact (Nat.Prime prime) := ⟨prime_is_prime⟩
  have h1 : ((x * x : Nat) : ZMod prime) = ((y * y : Nat) : ZMod prime) :=
    (ZMod.natCast_eq_natCast_iff _ _ _).2 h
  have h2 : (x : ZMod prime) ^ 2 = (y : ZMod prime) ^ 2 := by
    push_cast at h1
    rw [pow_two, pow_two]; exact h1
  rcases sq_eq_sq_iff_eq_or_eq_neg.1 h2 with h3 | h3
  · exact Or.inl (cast_eq_of_lt x y hx hy h3)
  · right
    have h4 : ((x + y : Nat) : ZMod prime) = 0 := by
      push_cast; rw [h3]; ring
    have h5 : prime ∣ x + y := (ZMod.natCast_zmod_eq_zero_iff_dvd _ _).1 h4
    obtain ⟨k, hk⟩ := h5
    have hk2 : k = 0 ∨ k = 1 := by
      rcases k with _ | _ | k
      · left; rfl
      · right; rfl
      · exfalso
        have : prime * (k + 1 + 1) ≥ prime * 2 := Nat.mul_le_mul_left _ (by omega)
        omega
    rcases hk2 with rfl | rfl
    · right; omega
    · left; omega

theorem sq_add_sq_ne (x y : Nat) (hy0 : 0 < y) (hy : y < prime)
    (h : x * x % prime + y * y % prime = prime) : False := by
  haveI : Fact (Nat.Prime prime) := ⟨prime_is_prime⟩
  have h1 : ((x * x % prime + y * y % prime : Nat) : ZMod prime) = 0 := by
    rw [h]; exact (ZMod.natCast_zmod_eq_zero_iff_dvd _ _).2 (dvd_refl _)
  have h2 : (x : ZMod prime) * x + (y : ZMod prime) * y = 0 := by
    have e1 : ((x * x % prime : Nat) : ZMod prime) = ((x * x : Nat) : ZMod prime) :=
      (ZMod.natCast_eq_natCast_iff _ _ _).2 (Nat.mod_mod _ _)
    have e2 : ((y * y % prime : Nat) : ZMod prime) = ((y * y : Nat) : ZMod prime) :=
      (ZMod.natCast_eq_natCast_iff _ _ _).2 (Nat.mod_mod _ _)
    rw [Nat.cast_add, e1, e2] at h1
    push_cast at h1
    exact h1
  have hy1 : (y : ZMod prime) ≠ 0 := by
    intro h0
    have := (ZMod.natCast_zmod_eq_zero_iff_dvd _ _).1 h0
    exact Nat.not_dvd_of_pos_of_lt hy0 hy this
  have h3 : IsSquare (-1 : ZMod prime) := by
    refine ⟨(x : ZMod prime) * (y : ZMod prime)⁻¹, ?_⟩
    have h4 : (x : ZMod prime) * x = -((y : ZMod prime) * y) := eq_neg_of_add_eq_zero_left h2
    field_simp
    rw [h4]
  have h5 := ZMod.exists_sq_eq_neg_one_iff.1 h3
  exact h5 (by unfold prime; norm_num)

theorem permuteQPR_big (x : Nat) (hx : prime ≤ x) : permuteQPR x = x := by
  unfold permuteQPR
  rw [if_pos hx]

theorem permuteQPR_low (x : Nat) (hx : x ≤ prime / 2) : permuteQPR x = x * x % prime := by
  have hhalf : prime / 2 = 2147483645 := by unfold prime; norm_num
  have hpv : prime = 4294967291 := rfl
  unfold permuteQPR
  rw [if_neg (by omega)]
  simp only [hx, if_true]

theorem permuteQPR_high (x : Nat) (hx : prime / 2 < x) (hx2 : x < prime) :
    permuteQPR x = prime - x * x % prime := by
  unfold permuteQPR
  rw [if_neg (by omega)]
  simp only [Nat.not_le.2 hx, if_false]

theorem sq_mod_ne_zero (x : Nat) (hx0 : 0 < x) (hx : x < prime) : x * x % prime ≠ 0 := by
  intro h0
  have hd : prime ∣ x * x := Nat.dvd_of_mod_eq_zero h0
  rcases (Nat.Prime.dvd_mul prime_is_prime).1 hd with h1 | h1
  · exact Nat.not_dvd_of_pos_of_lt hx0 hx h1
  · exact Nat.not_dvd_of_pos_of_lt hx0 hx h1

theorem permuteQPR_lt (x : Nat) (hx : x < prime) : permuteQPR x < prime := by
  have hp : 0 < prime := by unfold prime; norm_num
  have hr : x * x % prime < prime := Nat.mod_lt _ hp
  by_cases h : x ≤ prime / 2
  · rw [permuteQPR_low x h]; exact hr
  · rw [permuteQPR_high x (by omega) hx]
    have hne := sq_mod_ne_zero x (by omega) hx
    omega

theorem permuteQPR_lt_u32 (x : Nat) (hx : x < 4294967296) : permuteQPR x < 4294967296 := by
  by_cases h : x < prime
  · have := permuteQPR_lt x h
    unfold prime at this; omega
  · rw [permuteQPR_big x (by omega)]; exact hx

theorem permuteQPR_injective : Function.Injective permuteQPR := by
  intro x y hxy
  have hp : 0 < prime := by unfold prime; norm_num
  have hhalf : prime / 2 = 2147483645 := by unfold prime; norm_num
  have hpv : prime = 4294967291 := rfl
  by_cases hx : x < prime
  · by_cases hy : y < prime
    · have hrx : x * x % prime < prime := Nat.mod_lt _ hp
      have hry : y * y % prime < prime := Nat.mod_lt _ hp
      by_cases hx2 : x ≤ prime / 2
      · by_cases hy2 : y ≤ prime / 2
        · rw [permuteQPR_low x hx2, permuteQPR_low y hy2] at hxy
          rcases sq_mod_eq x y hx hy hxy with h | h | h
          · exact h
          · omega
          · omega
        · rw [permuteQPR_low x hx2, permuteQPR_high y (by omega) hy] at hxy
          exfalso
          exact sq_add_sq_ne x y (by omega) hy (by omega)
      · by_cases hy2 : y ≤ prime / 2
        · rw [permuteQPR_high x (by omega) hx, permuteQPR_low y hy2] at hxy
          exfalso
          exact sq_add_sq_ne y x (by omega) hx (by omega)
        · rw [permuteQPR_high x (by omega) hx, permuteQPR_high y (by omega) hy] at hxy
          rcases sq_mod_eq x y hx hy (by omega) with h | h | h
          · exact h
          · omega
          · omega
    · have hfx := permuteQPR_lt x hx
      rw [permuteQPR_big y (by omega)] at hxy
      omega
  · rw [permuteQPR_big x (by omega)] at hxy
    by_cases hy : y < prime
    · have hfy := permuteQPR_lt y hy
      omega
    · rw [permuteQPR_big y (by omega)] at hxy
      exact hxy

/-! ### The generator does not repeat -/

theorem next_fst_injective (off i j : Nat) (hi : i < 4294967296) (hj : j < 4294967296)
    (h : (RSU.next { m_index := i, m_intermediateOffset := off }).1 =
      (RSU.next { m_index := j, m_intermediateOffset := off }).1) : i = j := by
  simp only [RSU.next] at h
  have h1 := Nat.xor_left_injective (permuteQPR_injective h)
  have hi2 := permuteQPR_lt_u32 i hi
  have hj2 := permuteQPR_lt_u32 j hj
  apply permuteQPR_injective
  omega

theorem outputs_eq_map (n : Nat) : ∀ r : RSU, r.m_index < 4294967296 →
    RSU.outputs n r = (List.range n).map (fun k =>
      (RSU.next { m_index := (r.m_index + k) % 4294967296,
                  m_intermediateOffset := r.m_intermediateOffset }).1) := by
  induction n with
  | zero => intro r _; rfl
  | succ n ih =>
    intro r hr
    rw [RSU.outputs, ih r.next.2 (by simp only [RSU.next]; omega), List.range_succ_eq_map,
      List.map_cons, List.map_map]
    congr 1
    · simp only [RSU.next, Nat.add_zero, Nat.mod_eq_of_lt hr]
    · apply List.map_congr_left
      intro k _
      simp only [RSU.next, Function.comp, Nat.succ_eq_add_one]
      have e : ((r.m_index + 1) % 4294967296 + k) % 4294967296 = (r.m_index + (k + 1)) % 4294967296 := by
        omega
      rw [e]

theorem outputs_nodup (n : Nat) (hn : n ≤ 4294967296) (r : RSU) (hr : r.m_index < 4294967296) :
    (RSU.outputs n r).Nodup := by
  rw [outputs_eq_map n r hr]
  apply List.Nodup.map_on _ (List.nodup_range n)
  intro x hx y hy hxy
  have hx2 : x < n := List.mem_range.1 hx
  have hy2 : y < n := List.mem_range.1 hy
  have h := next_fst_injective _ _ _ (Nat.mod_lt _ (by norm_num)) (Nat.mod_lt _ (by norm_num)) hxy
  omega

theorem new_index_lt (seedBase seedOffset : Nat) : (RSU.new seedBase seedOffset).m_index < 4294967296 := by
  simp only [RSU.new]
  exact permuteQPR_lt_u32 _ (Nat.mod_lt _ (by norm_num))

theorem outputs_length (n : Nat) : ∀ r : RSU, (RSU.outputs n r).length = n := by
  induction n with
  | zero => intro r; rfl
  | succ n ih => intro r; simp [RSU.outputs, ih]

/-! ### Shard ownership -/

theorem owns_iff (m w idx : Nat) : owns m w idx = true ↔ idx / m = w := by
  simp [owns]

theorem owns_block (m w idx : Nat) (hm : 0 < m) :
    owns m w idx = true ↔ w * m ≤ idx ∧ idx < (w + 1) * m := by
  rw [owns_iff, ← Nat.le_div_iff_mul_le hm, ← Nat.div_lt_iff_lt_mul hm]
  omega

/-- Claim C1: for a worker count `W > 0` dividing the shard count `S`, the ownership test with
`modulo = S / W` gives worker `w` exactly the shards `w * modulo .. (w + 1) * modulo - 1`, the
blocks of the workers `0..W-1` lie inside `0..S-1`, and every shard index below `S` is owned by
exactly one worker below `W`. -/
theorem C1_shard_partition (S W : Nat) (hW : 0 < W) (hdvd : W ∣ S) :
    (∀ w idx, idx < S →
      (owns (S / W) w idx = true ↔ w * (S / W) ≤ idx ∧ idx < (w + 1) * (S / W))) ∧
    (∀ w, w < W → (w + 1) * (S / W) ≤ S) ∧
    (∀ idx, idx < S → ∃! w, w < W ∧ owns (S / W) w idx = true) := by
  obtain ⟨m, rfl⟩ := hdvd
  rw [Nat.mul_div_cancel_left m hW]
  refine ⟨?_, ?_, ?_⟩
  · intro w idx hidx
    have hm : 0 < m := by
      rcases Nat.eq_zero_or_pos m with h | h
      · subst h; simp at hidx
      · exact h
    exact owns_block m w idx hm
  · intro w hw
    exact Nat.mul_le_mul_right m hw
  · intro idx hidx
    have hm : 0 < m := by
      rcases Nat.eq_zero_or_pos m with h | h
      · subst h; simp at hidx
      · exact h
    refine ⟨idx / m, ⟨?_, (owns_iff _ _ _).2 rfl⟩, ?_⟩
    · rw [Nat.div_lt_iff_lt_mul hm]; exact hidx
    · rintro w ⟨_, hw⟩
      exact ((owns_iff _ _ _).1 hw).symm

/-- Witness of C1, the scenario of the specification: `S = 64`, `W = 8` give `modulo = 8`, and
shard index 23 is owned by worker 2 and by no other worker. -/
theorem C1_shard_partition_witness :
    64 / 8 = 8 ∧ owns (64 / 8) 2 23 = true ∧ (∀ w, w < 8 → w ≠ 2 → owns (64 / 8) w 23 = false) ∧
    (∃! w, w < 8 ∧ owns (64 / 8) w 23 = true) :=
  ⟨by decide, by decide, by decide,
    (C1_shard_partition 64 8 (by decide) (by decide)).2.2 23 (by decide)⟩

/-! ### The insertion loops in closed form -/

theorem mem_insertAll (ks : List Nat) : ∀ (h : List Nat) (k : Nat),
    k ∈ insertAll h ks ↔ k ∈ h ∨ k ∈ ks := by
  induction ks with
  | nil => intro h k; simp [insertAll]
  | cons a ks ih =>
    intro h k
    have e : insertAll h (a :: ks) = insertAll (h.insert a) ks := rfl
    rw [e, ih, List.mem_insert_iff, List.mem_cons]
    tauto

theorem length_insertAll (ks : List Nat) : ∀ (h : List Nat), ks.Nodup → (∀ k ∈ ks, k ∉ h) →
    (insertAll h ks).length = h.length + ks.length := by
  induction ks with
  | nil => intro h _ _; simp [insertAll]
  | cons a ks ih =>
    intro h hnd hdis
    have e : insertAll h (a :: ks) = insertAll (h.insert a) ks := rfl
    have ha : a ∉ h := hdis a (List.mem_cons_self _ _)
    rw [List.nodup_cons] at hnd
    rw [e, ih _ hnd.2, List.insert_of_not_mem ha]
    · simp only [List.length_cons]; omega
    · intro k hk
      rw [List.insert_of_not_mem ha, List.mem_cons, not_or]
      refine ⟨?_, hdis k (List.mem_cons_of_mem _ hk)⟩
      rintro rfl
      exact hnd.1 hk

theorem advance_succ (n : Nat) : ∀ r : RSU, RSU.advance (n + 1) r = (RSU.advance n r).next.2 := by
  induction n with
  | zero => intro r; rfl
  | succ n ih =>
    intro r
    have e : RSU.advance (n + 1 + 1) r = RSU.advance (n + 1) r.next.2 := rfl
    rw [e, ih r.next.2]
    rfl

theorem advance_add (a b : Nat) : ∀ r : RSU, RSU.advance a (RSU.advance b r) = RSU.advance (b + a) r := by
  induction b with
  | zero => intro r; simp [RSU.advance]
  | succ b ih =>
    intro r
    have e : RSU.advance (b + 1) r = RSU.advance b r.next.2 := rfl
    have e2 : b + 1 + a = (b + a) + 1 := by omega
    rw [e, ih r.next.2, e2]
    rfl

theorem advance_fields (n : Nat) : ∀ r : RSU,
    (RSU.advance n r).m_index = (if n = 0 then r.m_index else (r.m_index + n) % 4294967296) ∧
    (RSU.advance n r).m_intermediateOffset = r.m_intermediateOffset := by
  induction n with
  | zero => intro r; simp [RSU.advance]
  | succ n ih =>
    intro r
    have e : RSU.advance (n + 1) r = RSU.advance n r.next.2 := rfl
    rw [e]
    obtain ⟨h1, h2⟩ := ih r.next.2
    rw [h1, h2]
    simp only [RSU.next, Nat.add_one_ne_zero, if_false]
    refine ⟨?_, trivial⟩
    split
    · subst_vars; rfl
    · omega

theorem advance_next_val (r : RSU) (hr : r.m_index < 4294967296) (i : Nat) :
    (RSU.advance i r).next.1 =
      (RSU.next { m_index := (r.m_index + i) % 4294967296,
                  m_intermediateOffset := r.m_intermediateOffset }).1 := by
  obtain ⟨h1, h2⟩ := advance_fields i r
  have h3 : (RSU.advance i r).m_index = (r.m_index + i) % 4294967296 := by
    rw [h1]
    split
    · subst_vars
      rw [Nat.add_zero, Nat.mod_eq_of_lt hr]
    · rfl
  simp only [RSU.next, h2, h3]

/-- Claim C2: for every seed pair, the first 4294967291 values returned by `next` on a freshly
constructed generator are pairwise distinct: the list of these values has no repetition, and
the values returned by call number `i + 1` and call number `j + 1` differ for all
`i < j < 4294967291`. -/
theorem C2_fresh_outputs_nodup (seedBase seedOffset : Nat) :
    (RSU.outputs 4294967291 (RSU.new seedBase seedOffset)).Nodup ∧
    (RSU.outputs 4294967291 (RSU.new seedBase seedOffset)).length = 4294967291 ∧
    (∀ i j, i < j → j < 4294967291 →
      (RSU.advance i (RSU.new seedBase seedOffset)).next.1 ≠
        (RSU.advance j (RSU.new seedBase seedOffset)).next.1) := by
  have hr := new_index_lt seedBase seedOffset
  refine ⟨outputs_nodup 4294967291 (by norm_num) _ hr, outputs_length _ _, ?_⟩
  intro i j hij hj h
  rw [advance_next_val _ hr i, advance_next_val _ hr j] at h
  have h2 := next_fst_injective _ _ _ (Nat.mod_lt _ (by norm_num)) (Nat.mod_lt _ (by norm_num)) h
  omega

theorem bump_add (a : Nat) : ∀ (b : Nat) (v : Int), bump b (bump a v) = bump (a + b) v := by
  induction a with
  | zero => intro b v; rw [Nat.zero_add]; rfl
  | succ a ih =>
    intro b v
    have e : a + 1 + b = (a + b) + 1 := by omega
    rw [e]
    exact ih b (wrapInt64 (v + 1))

theorem toU64_wrap_add (x y : Int) : toU64 (wrapInt64 x + y) = toU64 (x + y) := by
  unfold wrapInt64 toInt64 toU64
  split <;> omega

theorem wrapInt64_range (x : Int) :
    -9223372036854775808 ≤ wrapInt64 x ∧ wrapInt64 x < 9223372036854775808 := by
  unfold wrapInt64 toInt64 toU64
  split <;> omega

theorem wrapInt64_of_range (x : Int) (h1 : -9223372036854775808 ≤ x)
    (h2 : x < 9223372036854775808) : wrapInt64 x = x := by
  unfold wrapInt64 toInt64 toU64
  split <;> omega

theorem wrapInt64_wrap_add (x y : Int) : wrapInt64 (wrapInt64 x + y) = wrapInt64 (x + y) := by
  unfold wrapInt64
  rw [show toU64 (toInt64 (toU64 x) + y) = toU64 (x + y) from toU64_wrap_add x y]

theorem toU64_bump (n : Nat) : ∀ v : Int, toU64 (bump n v) = toU64 (v + n) := by
  induction n with
  | zero => intro v; simp [bump]
  | succ n ih =>
    intro v
    have e : v + ((n + 1 : Nat) : Int) = v + 1 + n := by push_cast; ring
    rw [e, ← toU64_wrap_add (v + 1) n]
    exact ih (wrapInt64 (v + 1))

theorem bump_eq_wrap (n : Nat) : ∀ v : Int, -9223372036854775808 ≤ v →
    v < 9223372036854775808 → bump n v = wrapInt64 (v + n) := by
  induction n with
  | zero =>
    intro v h1 h2
    simp only [bump, Nat.cast_zero, add_zero]
    exact (wrapInt64_of_range v h1 h2).symm
  | succ n ih =>
    intro v _ _
    have e : v + ((n + 1 : Nat) : Int) = v + 1 + n := by push_cast; ring
    rw [e, ← wrapInt64_wrap_add (v + 1) n]
    exact ih (wrapInt64 (v + 1)) (wrapInt64_range _).1 (wrapInt64_range _).2

/-- The counter increment at `INT64_MAX`: the slot wraps to `INT64_MIN`. -/
theorem insertCounted_wraps :
    (St.insertCounted { hash := [], num_keys := fun _ => 9223372036854775807 } 0 5).num_keys 0 =
      -9223372036854775808 := by
  decide

theorem fillInnerLoop_eq (n : Nat) : ∀ (st : St) (rsu : RSU),
    fillInnerLoop n st rsu =
      ({ hash := insertAll st.hash (RSU.outputs n rsu),
         num_keys := Function.update st.num_keys 0 (bump n (st.num_keys 0)) },
       RSU.advance n rsu) := by
  induction n with
  | zero =>
    intro st rsu
    simp [fillInnerLoop, RSU.outputs, RSU.advance, insertAll, bump]
  | succ n ih =>
    intro st rsu
    rw [fillInnerLoop, ih]
    simp only [St.insertCounted, RSU.outputs, RSU.advance, Function.update_idem,
      Function.update_same]
    rfl

theorem fillThrLoop_eq (hasher subidx : Nat → Nat) (m w : Nat) (n : Nat) :
    ∀ (st : St) (rsu : RSU), (n = 0 ∨ m ≠ 0) →
    fillThrLoop hasher subidx m w n st rsu =
      .ok { hash := insertAll st.hash (ownedKeys hasher subidx m w (RSU.outputs n rsu)),
            num_keys := Function.update st.num_keys w
              (bump (ownedKeys hasher subidx m w (RSU.outputs n rsu)).length
                (st.num_keys w)) } := by
  induction n with
  | zero =>
    intro st rsu _
    simp [fillThrLoop, RSU.outputs, ownedKeys, insertAll, bump]
  | succ n ih =>
    intro st rsu hm
    have hm2 : m ≠ 0 := by
      rcases hm with h | h
      · omega
      · exact h
    rw [fillThrLoop]
    simp only [hm2, if_false]
    by_cases ho : owns m w (subidx (hasher rsu.next.1)) = true
    · rw [if_pos ho, ih _ _ (Or.inr hm2)]
      simp only [St.insertCounted, RSU.outputs, ownedKeys, List.filter_cons, ho, if_true,
        Function.update_idem, Function.update_same, List.length_cons]
      rfl
    · rw [if_neg ho, ih _ _ (Or.inr hm2)]
      simp only [RSU.outputs, ownedKeys, List.filter_cons, ho]
      rfl

theorem thr_eq (subcnt : Nat) (hasher subidx : Nat → Nat) (cnt : Int) (rsu : RSU) (w : Nat) (st : St)
    (hm : cnt.toNat = 0 ∨ subcnt / 8 ≠ 0) :
    _fill_random_inner_thr subcnt hasher subidx (mkTD w cnt rsu) st =
      .ok { hash := insertAll st.hash
              (ownedKeys hasher subidx (subcnt / 8) w (RSU.outputs cnt.toNat rsu)),
            num_keys := Function.update st.num_keys w
              (bump (ownedKeys hasher subidx (subcnt / 8) w (RSU.outputs cnt.toNat rsu)).length
                (st.num_keys w)) } := by
  unfold _fill_random_inner_thr
  simp only [mkTD]
  rw [if_neg (by norm_num)]
  exact fillThrLoop_eq hasher subidx (subcnt / 8) w cnt.toNat st rsu hm

theorem runWorkers_ok (subcnt : Nat) (hasher subidx : Nat → Nat) (cnt : Int) (rsu : RSU)
    (hm : cnt.toNat = 0 ∨ subcnt / 8 ≠ 0) : ∀ (ws : List Nat) (st : St),
    ∃ st1, runWorkers subcnt hasher subidx cnt rsu ws st = .ok st1 ∧
      (∀ k, k ∈ st1.hash ↔ k ∈ st.hash ∨
        ∃ w ∈ ws, k ∈ ownedKeys hasher subidx (subcnt / 8) w (RSU.outputs cnt.toNat rsu)) ∧
      (∀ i, st1.num_keys i = bump (ws.map (fun w => if w = i then
        (ownedKeys hasher subidx (subcnt / 8) w (RSU.outputs cnt.toNat rsu)).length
        else 0)).sum (st.num_keys i)) := by
  intro ws
  induction ws with
  | nil =>
    intro st
    exact ⟨st, rfl, by simp, fun _ => rfl⟩
  | cons a ws ih =>
    intro st
    rw [runWorkers, thr_eq subcnt hasher subidx cnt rsu a st hm]
    obtain ⟨st1, h1, h2, h3⟩ := ih
      { hash := insertAll st.hash
          (ownedKeys hasher subidx (subcnt / 8) a (RSU.outputs cnt.toNat rsu)),
        num_keys := Function.update st.num_keys a
          (bump (ownedKeys hasher subidx (subcnt / 8) a (RSU.outputs cnt.toNat rsu)).length
            (st.num_keys a)) }
    dsimp only at h2 h3
    refine ⟨st1, h1, ?_, ?_⟩
    · intro k
      rw [h2 k, mem_insertAll]
      simp only [List.mem_cons, exists_eq_or_imp]
      tauto
    · intro i
      rw [h3 i, List.map_cons, List.sum_cons]
      by_cases hai : a = i
      · subst hai
        simp only [Function.update_same, if_true]
        exact bump_add _ _ _
      · rw [Function.update_noteq (Ne.symm hai), if_neg hai, Nat.zero_add]

theorem sum_ite_range (n i : Nat) (v : Nat → Int) :
    ((List.range n).map (fun w => if w = i then v w else 0)).sum = if i < n then v i else 0 := by
  induction n with
  | zero => simp
  | succ n ih =>
    rw [List.range_succ, List.map_append, List.sum_append, ih]
    simp only [List.map_cons, List.map_nil, List.sum_cons, List.sum_nil, add_zero]
    by_cases h1 : i < n
    · rw [if_pos h1, if_neg (by omega), if_pos (by omega)]; ring
    · by_cases h2 : n = i
      · subst h2; simp
      · rw [if_neg h1, if_neg h2, if_neg (by omega)]; ring

theorem sum_ite_range_nat (n i : Nat) (v : Nat → Nat) :
    ((List.range n).map (fun w => if w = i then v w else 0)).sum = if i < n then v i else 0 := by
  induction n with
  | zero => simp
  | succ n ih =>
    rw [List.range_succ, List.map_append, List.sum_append, ih]
    simp only [List.map_cons, List.map_nil, List.sum_cons, List.sum_nil, Nat.add_zero]
    by_cases h1 : i < n
    · rw [if_pos h1, if_neg (by omega), if_pos (by omega)]; omega
    · by_cases h2 : n = i
      · subst h2; simp
      · rw [if_neg h1, if_neg h2, if_neg (by omega)]

theorem mt_ok (subcnt : Nat) (hasher subidx : Nat → Nat) (cnt : Int) (st : St) (rsu : RSU)
    (hm : cnt.toNat = 0 ∨ subcnt / 8 ≠ 0) :
    ∃ st1, _fill_random_inner_mt subcnt hasher subidx cnt st rsu =
        .ok (st1, RSU.advance cnt.toNat rsu) ∧
      (∀ k, k ∈ st1.hash ↔ k ∈ st.hash ∨
        ∃ w, w < 8 ∧ k ∈ ownedKeys hasher subidx (subcnt / 8) w (RSU.outputs cnt.toNat rsu)) ∧
      (∀ i, st1.num_keys i = bump (if i < 8 then
        (ownedKeys hasher subidx (subcnt / 8) i (RSU.outputs cnt.toNat rsu)).length
        else 0) (st.num_keys i)) := by
  obtain ⟨st1, h1, h2, h3⟩ := runWorkers_ok subcnt hasher subidx cnt rsu hm (List.range 8) st
  refine ⟨st1, ?_, ?_, ?_⟩
  · unfold _fill_random_inner_mt
    rw [h1]
  · intro k
    rw [h2 k]
    simp only [List.mem_range]
  · intro i
    rw [h3 i, sum_ite_range_nat 8 i
      (fun w => (ownedKeys hasher subidx (subcnt / 8) w (RSU.outputs cnt.toNat rsu)).length)]

/-- The order in which the eight workers run does not matter for the keys in the map nor for
any counter slot. -/
theorem runWorkers_order (subcnt : Nat) (hasher subidx : Nat → Nat) (cnt : Int) (rsu : RSU)
    (hm : cnt.toNat = 0 ∨ subcnt / 8 ≠ 0) (ws : List Nat) (hp : ws.Perm (List.range 8)) (st : St) :
    ∃ st1 st2, runWorkers subcnt hasher subidx cnt rsu ws st = .ok st1 ∧
      runWorkers subcnt hasher subidx cnt rsu (List.range 8) st = .ok st2 ∧
      (∀ k, k ∈ st1.hash ↔ k ∈ st2.hash) ∧ (∀ i, st1.num_keys i = st2.num_keys i) := by
  obtain ⟨st1, h1, h2, h3⟩ := runWorkers_ok subcnt hasher subidx cnt rsu hm ws st
  obtain ⟨st2, g1, g2, g3⟩ := runWorkers_ok subcnt hasher subidx cnt rsu hm (List.range 8) st
  refine ⟨st1, st2, h1, g1, ?_, ?_⟩
  · intro k
    rw [h2 k, g2 k]
    simp only [hp.mem_iff]
  · intro i
    rw [h3 i, g3 i, (hp.map _).sum_eq]

/-! ### The counter total -/

theorem foldl_mod_sum (g : Nat → Nat) (l : List Nat) : ∀ a, a < 18446744073709551616 →
    l.foldl (fun n i => (n + g i) % 18446744073709551616) a =
      (a + (l.map g).sum) % 18446744073709551616 := by
  induction l with
  | nil => intro a ha; simp [Nat.mod_eq_of_lt ha]
  | cons x l ih =>
    intro a _
    rw [List.foldl_cons, ih _ (Nat.mod_lt _ (by norm_num)), List.map_cons, List.sum_cons]
    omega

theorem toU64_cast (x : Int) : ((toU64 x : Nat) : Int) = x % 18446744073709551616 := by
  unfold toU64
  exact Int.toNat_of_nonneg (Int.emod_nonneg _ (by norm_num))

theorem sum_toU64_modEq (c : Nat → Int) (l : List Nat) :
    (((l.map (fun i => toU64 (c i))).sum : Nat) : Int) ≡ (l.map c).sum [ZMOD 18446744073709551616] := by
  induction l with
  | nil => simp [Int.ModEq]
  | cons x l ih =>
    rw [List.map_cons, List.sum_cons, List.map_cons, List.sum_cons, Nat.cast_add, toU64_cast]
    exact Int.ModEq.add (Int.mod_modEq _ _) ih

theorem total_cast (c : Nat → Int) :
    ((total_num_keys c : Nat) : Int) = ((List.range 16).map c).sum % 18446744073709551616 := by
  unfold total_num_keys
  rw [foldl_mod_sum (fun i => toU64 (c i)) _ 0 (by norm_num), Nat.zero_add, Int.natCast_mod]
  exact sum_toU64_modEq c (List.range 16)

theorem total_add (c c1 : Nat → Int) (d : Nat → Int) (D : Nat)
    (h : ∀ i, i < 16 → c1 i = c i + d i)
    (hD : ((List.range 16).map d).sum = (D : Int)) :
    total_num_keys c1 = (total_num_keys c + D) % 18446744073709551616 := by
  have h1 : (List.range 16).map c1 = (List.range 16).map (fun i => c i + d i) := by
    apply List.map_congr_left
    intro i hi
    exact h i (List.mem_range.1 hi)
  have h2 : ((List.range 16).map c1).sum = ((List.range 16).map c).sum + D := by
    rw [h1, List.sum_map_add, hD]
  apply Int.natCast_inj.1
  rw [total_cast, h2, Int.natCast_mod, Nat.cast_add, total_cast]
  exact Int.ModEq.add (Int.mod_modEq _ _).symm (Int.ModEq.refl _)

theorem total_congr (c1 c2 : Nat → Int) (h : ∀ i, i < 16 → toU64 (c1 i) = toU64 (c2 i)) :
    total_num_keys c1 = total_num_keys c2 := by
  unfold total_num_keys
  rw [foldl_mod_sum (fun i => toU64 (c1 i)) _ 0 (by norm_num),
    foldl_mod_sum (fun i => toU64 (c2 i)) _ 0 (by norm_num)]
  have e : (List.range 16).map (fun i => toU64 (c1 i)) =
      (List.range 16).map (fun i => toU64 (c2 i)) := by
    apply List.map_congr_left
    intro i hi
    exact h i (List.mem_range.1 hi)
  rw [e]

theorem total_add_mod (c c1 : Nat → Int) (d : Nat → Int) (D : Nat)
    (h : ∀ i, i < 16 → toU64 (c1 i) = toU64 (c i + d i))
    (hD : ((List.range 16).map d).sum = (D : Int)) :
    total_num_keys c1 = (total_num_keys c + D) % 18446744073709551616 := by
  rw [total_congr c1 (fun i => c i + d i) h]
  exact total_add c (fun i => c i + d i) d D (fun _ _ => rfl) hD

/-! ### Counting the keys the workers accept -/

theorem mem_ownedKeys (hasher subidx : Nat → Nat) (m w : Nat) (ks : List Nat) (k : Nat) :
    k ∈ ownedKeys hasher subidx m w ks ↔ k ∈ ks ∧ subidx (hasher k) / m = w := by
  simp [ownedKeys, owns_iff]

theorem any_owns (m x : Nat) :
    (List.range 8).any (fun w => owns m w x) = decide (x / m < 8) := by
  rw [Bool.eq_iff_iff]
  simp [List.any_eq_true, owns_iff]

theorem filter_lt_succ (g : Nat → Nat) (n : Nat) (ks : List Nat) :
    (ks.filter (fun k => decide (g k < n))).length + (ks.filter (fun k => g k == n)).length =
      (ks.filter (fun k => decide (g k < n + 1))).length := by
  induction ks with
  | nil => rfl
  | cons a ks ih =>
    by_cases h1 : g a < n
    · have h2 : (g a == n) = false := by rw [beq_eq_false_iff_ne]; omega
      have h3 : g a < n + 1 := by omega
      rw [List.filter_cons_of_pos (by simpa using h1), List.filter_cons_of_neg (by simp [h2]),
        List.filter_cons_of_pos (by simpa using h3)]
      simp only [List.length_cons]
      omega
    · by_cases h2 : g a = n
      · have h3 : g a < n + 1 := by omega
        rw [List.filter_cons_of_neg (by simpa using h1),
          List.filter_cons_of_pos (by simpa using h2),
          List.filter_cons_of_pos (by simpa using h3)]
        simp only [List.length_cons]
        omega
      · have h3 : ¬ g a < n + 1 := by omega
        rw [List.filter_cons_of_neg (by simpa using h1),
          List.filter_cons_of_neg (by simpa using h2),
          List.filter_cons_of_neg (by simpa using h3)]
        exact ih

theorem sum_owned_range (hasher subidx : Nat → Nat) (m : Nat) (ks : List Nat) (n : Nat) :
    ((List.range n).map (fun w => ((ownedKeys hasher subidx m w ks).length : Int))).sum =
      ((ks.filter (fun k => decide (subidx (hasher k) / m < n))).length : Int) := by
  induction n with
  | zero => simp
  | succ n ih =>
    rw [List.range_succ, List.map_append, List.sum_append, ih]
    simp only [List.map_cons, List.map_nil, List.sum_cons, List.sum_nil, add_zero]
    rw [← filter_lt_succ (fun k => subidx (hasher k) / m) n ks, Nat.cast_add]
    rfl

theorem sum_ite_lt (v : Nat → Int) (n k : Nat) :
    ((List.range (n + k)).map (fun i => if i < n then v i else 0)).sum =
      ((List.range n).map v).sum := by
  induction k with
  | zero =>
    rw [Nat.add_zero]
    congr 1
    apply List.map_congr_left
    intro i hi
    rw [if_pos (List.mem_range.1 hi)]
  | succ k ih =>
    rw [← Nat.add_assoc, List.range_succ, List.map_append, List.sum_append, ih]
    simp

theorem accepted_length (hasher subidx : Nat → Nat) (m : Nat) (ks : List Nat) :
    ((List.range 16).map (fun i => if i < 8 then
      ((ownedKeys hasher subidx m i ks).length : Int) else 0)).sum =
      ((acceptedKeys hasher subidx m ks).length : Int) := by
  rw [sum_ite_lt (fun i => ((ownedKeys hasher subidx m i ks).length : Int)) 8 8,
    sum_owned_range]
  unfold acceptedKeys
  simp only [any_owns]

theorem mt_total (subcnt : Nat) (hasher subidx : Nat → Nat) (cnt : Int) (st st1 : St) (rsu : RSU)
    (h : ∀ i, st1.num_keys i = bump (if i < 8 then
        (ownedKeys hasher subidx (subcnt / 8) i (RSU.outputs cnt.toNat rsu)).length
        else 0) (st.num_keys i)) :
    total_num_keys st1.num_keys = (total_num_keys st.num_keys +
      (acceptedKeys hasher subidx (subcnt / 8) (RSU.outputs cnt.toNat rsu)).length)
        % 18446744073709551616 := by
  refine total_add_mod st.num_keys st1.num_keys _ _ ?_
    (accepted_length hasher subidx (subcnt / 8) (RSU.outputs cnt.toNat rsu))
  intro i _
  rw [h i, toU64_bump]
  by_cases hi : i < 8
  · simp only [hi, if_true]
  · simp only [hi, if_false, Nat.cast_zero]

theorem slot_total (c : Nat → Int) (n : Nat) :
    total_num_keys (Function.update c 0 (bump n (c 0))) =
      (total_num_keys c + n) % 18446744073709551616 := by
  refine total_add_mod c _ (fun i => if i = 0 then (n : Int) else 0) n ?_ ?_
  · intro i _
    dsimp only
    by_cases hi : i = 0
    · subst hi
      rw [Function.update_same, toU64_bump, if_pos rfl]
    · rw [Function.update_noteq hi, if_neg hi, add_zero]
  · have := sum_ite_range 16 0 (fun _ => (n : Int))
    simp only [Nat.lt_add_one, if_true, eq_comm (a := (0 : Nat))] at this ⊢
    norm_num at this ⊢
    exact this

theorem accepted_all (S : Nat) (hasher subidx : Nat → Nat) (h8 : 8 ∣ S)
    (hidx : ∀ h, subidx h < S) (ks : List Nat) :
    acceptedKeys hasher subidx (S / 8) ks = ks := by
  unfold acceptedKeys
  rw [List.filter_eq_self]
  intro k _
  rw [any_owns, decide_eq_true_eq]
  obtain ⟨m, rfl⟩ := h8
  rw [Nat.mul_div_cancel_left m (by norm_num)]
  have hk := hidx (hasher k)
  have hm : 0 < m := by
    rcases Nat.eq_zero_or_pos m with h | h
    · subst h; simp at hk
    · exact h
  rw [Nat.div_lt_iff_lt_mul hm]
  exact hk

theorem modulo_ne_zero (S : Nat) (subidx : Nat → Nat) (h8 : 8 ∣ S) (hidx : ∀ h, subidx h < S) :
    S / 8 ≠ 0 := by
  have h0 := hidx 0
  obtain ⟨m, rfl⟩ := h8
  omega

theorem workerKeys_eq (subcnt : Nat) (hasher subidx : Nat → Nat) (cnt : Int) (rsu : RSU) (w : Nat)
    (hm : cnt.toNat = 0 ∨ subcnt / 8 ≠ 0) :
    workerKeys subcnt hasher subidx cnt rsu w =
      insertAll [] (ownedKeys hasher subidx (subcnt / 8) w (RSU.outputs cnt.toNat rsu)) := by
  unfold workerKeys soloRun
  rw [thr_eq subcnt hasher subidx cnt rsu w _ hm]

theorem mem_workerKeys (subcnt : Nat) (hasher subidx : Nat → Nat) (cnt : Int) (rsu : RSU) (w k : Nat)
    (hm : cnt.toNat = 0 ∨ subcnt / 8 ≠ 0) :
    k ∈ workerKeys subcnt hasher subidx cnt rsu w ↔
      k ∈ RSU.outputs cnt.toNat rsu ∧ subidx (hasher k) / (subcnt / 8) = w := by
  rw [workerKeys_eq subcnt hasher subidx cnt rsu w hm, mem_insertAll, mem_ownedKeys]
  simp

/-- Claim C3: for a shard count divisible by 8 and a shard-index function with values below
it, `_fill_random_inner_mt` completes; each of the `cnt` keys produced from the entry state is
inserted by exactly one of the eight workers; the map holds the same keys as after the
single-threaded `_fill_random_inner` on the same `cnt`, map and generator state; the counter
total rises by `cnt` (as a `size_t`) in both; and both leave the generator in the same state. -/
theorem C3_partitioned_equals_single_pass (S : Nat) (hasher subidx : Nat → Nat) (cnt : Nat)
    (st : St) (rsu : RSU) (h8 : 8 ∣ S) (hidx : ∀ h, subidx h < S) :
    ∃ st1 rsu1, _fill_random_inner_mt S hasher subidx (cnt : Int) st rsu = .ok (st1, rsu1) ∧
      (∀ k ∈ RSU.outputs cnt rsu, ∃! w, w < 8 ∧ k ∈ workerKeys S hasher subidx (cnt : Int) rsu w) ∧
      (∀ k, k ∈ st1.hash ↔ k ∈ (_fill_random_inner (cnt : Int) st rsu).1.hash) ∧
      (∀ k, k ∈ st1.hash ↔ k ∈ st.hash ∨ k ∈ RSU.outputs cnt rsu) ∧
      total_num_keys st1.num_keys =
        (total_num_keys st.num_keys + cnt) % 18446744073709551616 ∧
      total_num_keys (_fill_random_inner (cnt : Int) st rsu).1.num_keys =
        (total_num_keys st.num_keys + cnt) % 18446744073709551616 ∧
      rsu1 = (_fill_random_inner (cnt : Int) st rsu).2 := by
  have hm0 : S / 8 ≠ 0 := modulo_ne_zero S subidx h8 hidx
  have hm : ((cnt : Int)).toNat = 0 ∨ S / 8 ≠ 0 := Or.inr hm0
  have hlt : ∀ k, subidx (hasher k) / (S / 8) < 8 := by
    intro k
    have hk := hidx (hasher k)
    obtain ⟨m, rfl⟩ := h8
    rw [Nat.mul_div_cancel_left m (by norm_num)] at hm0 ⊢
    rw [Nat.div_lt_iff_lt_mul (by omega)]
    exact hk
  obtain ⟨st1, h1, h2, h3⟩ := mt_ok S hasher subidx (cnt : Int) st rsu hm
  have htot := mt_total S hasher subidx (cnt : Int) st st1 rsu h3
  rw [accepted_all S hasher subidx h8 hidx, outputs_length] at htot
  simp only [Int.toNat_natCast] at h1 h2 htot
  have hkeys : ∀ k, k ∈ st1.hash ↔ k ∈ st.hash ∨ k ∈ RSU.outputs cnt rsu := by
    intro k
    rw [h2 k]
    constructor
    · rintro (h | ⟨w, _, hw⟩)
      · exact Or.inl h
      · exact Or.inr ((mem_ownedKeys _ _ _ _ _ _).1 hw).1
    · rintro (h | h)
      · exact Or.inl h
      · exact Or.inr ⟨_, hlt k, (mem_ownedKeys _ _ _ _ _ _).2 ⟨h, rfl⟩⟩
  refine ⟨st1, RSU.advance cnt rsu, h1, ?_, ?_, hkeys, htot, ?_, ?_⟩
  · intro k hk
    refine ⟨subidx (hasher k) / (S / 8), ⟨hlt k, ?_⟩, ?_⟩
    · rw [mem_workerKeys S hasher subidx (cnt : Int) rsu _ k hm, Int.toNat_natCast]
      exact ⟨hk, rfl⟩
    · rintro w ⟨_, hw⟩
      rw [mem_workerKeys S hasher subidx (cnt : Int) rsu _ k hm] at hw
      exact hw.2.symm
  · intro k
    rw [hkeys k]
    unfold _fill_random_inner
    rw [fillInnerLoop_eq, Int.toNat_natCast]
    exact (mem_insertAll _ _ _).symm
  · unfold _fill_random_inner
    rw [fillInnerLoop_eq, Int.toNat_natCast]
    exact slot_total st.num_keys cnt
  · unfold _fill_random_inner
    rw [fillInnerLoop_eq, Int.toNat_natCast]

/-- Witness of C3: sixteen shards, the identity as hash, `h % 16` as shard index, 1000 keys from
a freshly seeded generator, an empty map and zeroed counters. -/
theorem C3_partitioned_equals_single_pass_witness :
    ∃ st1 rsu1, _fill_random_inner_mt 16 id (fun h => h % 16) ((1000 : Nat) : Int)
        St.empty (RSU.new 76687 76688) = .ok (st1, rsu1) ∧
      (∀ k ∈ RSU.outputs 1000 (RSU.new 76687 76688),
        ∃! w, w < 8 ∧ k ∈ workerKeys 16 id (fun h => h % 16) ((1000 : Nat) : Int)
          (RSU.new 76687 76688) w) ∧
      (∀ k, k ∈ st1.hash ↔ k ∈ (_fill_random_inner ((1000 : Nat) : Int)
        St.empty (RSU.new 76687 76688)).1.hash) ∧
      (∀ k, k ∈ st1.hash ↔ k ∈ St.empty.hash ∨ k ∈ RSU.outputs 1000 (RSU.new 76687 76688)) ∧
      total_num_keys st1.num_keys =
        (total_num_keys St.empty.num_keys + 1000) % 18446744073709551616 ∧
      total_num_keys (_fill_random_inner ((1000 : Nat) : Int)
        St.empty (RSU.new 76687 76688)).1.num_keys =
        (total_num_keys St.empty.num_keys + 1000) % 18446744073709551616 ∧
      rsu1 = (_fill_random_inner ((1000 : Nat) : Int)
        St.empty (RSU.new 76687 76688)).2 :=
  C3_partitioned_equals_single_pass 16 id (fun h => h % 16) 1000
    St.empty (RSU.new 76687 76688) (by decide)
    (fun h => Nat.mod_lt h (by decide))

theorem ownedKeys_nodup (hasher subidx : Nat → Nat) (m w : Nat) (ks : List Nat) (h : ks.Nodup) :
    (ownedKeys hasher subidx m w ks).Nodup :=
  List.Nodup.filter _ h

theorem workerKeys_length (subcnt : Nat) (hasher subidx : Nat → Nat) (cnt : Int) (rsu : RSU) (w : Nat)
    (hm : cnt.toNat = 0 ∨ subcnt / 8 ≠ 0) (hnd : (RSU.outputs cnt.toNat rsu).Nodup) :
    (workerKeys subcnt hasher subidx cnt rsu w).length =
      (ownedKeys hasher subidx (subcnt / 8) w (RSU.outputs cnt.toNat rsu)).length := by
  rw [workerKeys_eq subcnt hasher subidx cnt rsu w hm,
    length_insertAll _ _ (ownedKeys_nodup _ _ _ _ _ hnd) (by simp)]
  simp

theorem modulo_cases (S cnt : Nat) (hS : cnt = 0 ∨ 8 ≤ S) :
    ((cnt : Int)).toNat = 0 ∨ S / 8 ≠ 0 := by
  rcases hS with h | h
  · left; simp [h]
  · right; omega

/-- Claim C4: for a partitioned run over `cnt <= 4294967291` candidate keys (run to completion:
`cnt = 0`, or a shard count of at least 8 so that the ownership test does not divide by zero),
with the slots `0..7` holding `int64_t` values at entry: the counter total has grown (as a
`size_t`) by the number of distinct generator outputs accepted by some worker; slot `w` holds
its entry value plus the number of keys worker `w` inserted, as an `int64_t`, which is the plain
sum whenever that sum does not exceed `INT64_MAX`; no slot from 8 on has changed; and every key
inserted by worker `w` has a shard index `idx` with `idx / modulo = w`. -/
theorem C4_counters_after_partitioned_run (S : Nat) (hasher subidx : Nat → Nat) (cnt : Nat)
    (st : St) (rsu : RSU) (hcnt : cnt ≤ 4294967291) (hidx : rsu.m_index < 4294967296)
    (hS : cnt = 0 ∨ 8 ≤ S)
    (hrange : ∀ w, w < 8 →
      -9223372036854775808 ≤ st.num_keys w ∧ st.num_keys w < 9223372036854775808) :
    ∃ st1 rsu1, _fill_random_inner_mt S hasher subidx (cnt : Int) st rsu = .ok (st1, rsu1) ∧
      total_num_keys st1.num_keys = (total_num_keys st.num_keys +
        (acceptedKeys hasher subidx (S / 8) (RSU.outputs cnt rsu)).dedup.length)
          % 18446744073709551616 ∧
      (∀ w, w < 8 → st1.num_keys w =
        wrapInt64 (st.num_keys w + (workerKeys S hasher subidx (cnt : Int) rsu w).length)) ∧
      (∀ w, w < 8 →
        st.num_keys w + (workerKeys S hasher subidx (cnt : Int) rsu w).length
          < 9223372036854775808 →
        st1.num_keys w =
          st.num_keys w + (workerKeys S hasher subidx (cnt : Int) rsu w).length) ∧
      (∀ i, 8 ≤ i → st1.num_keys i = st.num_keys i) ∧
      (∀ w, w < 8 → ∀ k ∈ workerKeys S hasher subidx (cnt : Int) rsu w,
        subidx (hasher k) / (S / 8) = w) := by
  have hm := modulo_cases S cnt hS
  have hnd : (RSU.outputs ((cnt : Int)).toNat rsu).Nodup := by
    rw [Int.toNat_natCast]
    exact outputs_nodup cnt (by omega) rsu hidx
  obtain ⟨st1, h1, _, h3⟩ := mt_ok S hasher subidx (cnt : Int) st rsu hm
  have htot := mt_total S hasher subidx (cnt : Int) st st1 rsu h3
  have hslot : ∀ w, w < 8 → st1.num_keys w =
      wrapInt64 (st.num_keys w + (workerKeys S hasher subidx (cnt : Int) rsu w).length) := by
    intro w hw
    rw [h3 w, if_pos hw, workerKeys_length S hasher subidx (cnt : Int) rsu w hm hnd]
    exact bump_eq_wrap _ _ (hrange w hw).1 (hrange w hw).2
  refine ⟨st1, _, h1, ?_, hslot, ?_, ?_, ?_⟩
  · have hnd2 : (acceptedKeys hasher subidx (S / 8) (RSU.outputs ((cnt : Int)).toNat rsu)).Nodup :=
      List.Nodup.filter _ hnd
    rw [List.dedup_eq_self.2 (by simpa using hnd2)]
    simpa using htot
  · intro w hw hlt
    rw [hslot w hw]
    refine wrapInt64_of_range _ ?_ hlt
    have := (hrange w hw).1
    omega
  · intro i hi
    rw [h3 i, if_neg (by omega)]
    rfl
  · intro w _ k hk
    exact ((mem_workerKeys S hasher subidx (cnt : Int) rsu w k hm).1 hk).2

/-- Witness of C4: sixteen shards, the identity as hash, `h % 16` as shard index, 1000 keys from
a freshly seeded generator, an empty map and zeroed counters. -/
theorem C4_counters_after_partitioned_run_witness :
    ∃ st1 rsu1, _fill_random_inner_mt 16 id (fun h => h % 16) ((1000 : Nat) : Int)
        St.empty (RSU.new 76687 76688) = .ok (st1, rsu1) ∧
      total_num_keys st1.num_keys = (total_num_keys St.empty.num_keys +
        (acceptedKeys id (fun h => h % 16) (16 / 8)
          (RSU.outputs 1000 (RSU.new 76687 76688))).dedup.length) % 18446744073709551616 ∧
      (∀ w, w < 8 → st1.num_keys w = wrapInt64 (St.empty.num_keys w +
        (workerKeys 16 id (fun h => h % 16) ((1000 : Nat) : Int) (RSU.new 76687 76688) w).length)) ∧
      (∀ w, w < 8 →
        St.empty.num_keys w +
          (workerKeys 16 id (fun h => h % 16) ((1000 : Nat) : Int) (RSU.new 76687 76688) w).length
          < 9223372036854775808 →
        st1.num_keys w = St.empty.num_keys w +
          (workerKeys 16 id (fun h => h % 16) ((1000 : Nat) : Int) (RSU.new 76687 76688) w).length) ∧
      (∀ i, 8 ≤ i → st1.num_keys i = St.empty.num_keys i) ∧
      (∀ w, w < 8 → ∀ k ∈ workerKeys 16 id (fun h => h % 16) ((1000 : Nat) : Int)
        (RSU.new 76687 76688) w, (fun h => h % 16) (id k) / (16 / 8) = w) :=
  C4_counters_after_partitioned_run 16 id (fun h => h % 16) 1000
    St.empty (RSU.new 76687 76688) (by norm_num)
    (new_index_lt 76687 76688) (Or.inr (by norm_num))
    (fun _ _ => ⟨by simp [St.empty], by simp [St.empty]⟩)

theorem mt_zero (S : Nat) (hasher subidx : Nat → Nat) (st : St) (rsu : RSU) :
    _fill_random_inner_mt S hasher subidx 0 st rsu = .ok (st, rsu) := rfl

/-- Counterexample to claim C6 as stated: with 12 shards (8 does not divide 12) the partitioned
path reports nothing and runs with `modulo = 12 / 8 = 1`. Of the first three keys of the
generator seeded as in `_fill_random2`, the two of shard index 3 are inserted by worker 3 and
the one of shard index 11 is left out. -/
theorem C6_counterexample :
    ¬ (8 ∣ 12) ∧
    RSU.outputs 3 (RSU.new 76687 76688) = [2977074675, 793125387, 3633959579] ∧
    ∃ st1 rsu1, _fill_random_inner_mt 12 id (fun h => h % 12) 3 St.empty (RSU.new 76687 76688) =
        .ok (st1, rsu1) ∧
      st1.hash = [793125387, 2977074675] ∧ st1.num_keys 3 = 2 ∧ total_num_keys st1.num_keys = 2 :=
  ⟨by decide, by decide, _, _, rfl, by decide, by decide, by decide⟩

/-- Claim C6, amended: a shard count `S >= 8` that 8 does not divide is not rejected. The
partitioned path completes with `modulo = S / 8`; it inserts exactly the generated keys whose
shard index `idx` has `idx / modulo < 8` and counts them; and some shard index below `S` is
owned by no worker, so keys of that shard are left out. -/
theorem C6_indivisible_count_runs (S : Nat) (hasher subidx : Nat → Nat) (cnt : Nat)
    (st : St) (rsu : RSU) (h8 : ¬ 8 ∣ S) (hS : 8 ≤ S) :
    ∃ st1 rsu1, _fill_random_inner_mt S hasher subidx (cnt : Int) st rsu = .ok (st1, rsu1) ∧
      (∀ k, k ∈ st1.hash ↔ k ∈ st.hash ∨
        (k ∈ RSU.outputs cnt rsu ∧ subidx (hasher k) / (S / 8) < 8)) ∧
      total_num_keys st1.num_keys = (total_num_keys st.num_keys +
        (acceptedKeys hasher subidx (S / 8) (RSU.outputs cnt rsu)).length)
          % 18446744073709551616 ∧
      (∃ idx, idx < S ∧ ∀ w, w < 8 → owns (S / 8) w idx = false) := by
  have hm := modulo_cases S cnt (Or.inr hS)
  obtain ⟨st1, h1, h2, h3⟩ := mt_ok S hasher subidx (cnt : Int) st rsu hm
  have htot := mt_total S hasher subidx (cnt : Int) st st1 rsu h3
  rw [Int.toNat_natCast] at h2 htot
  refine ⟨st1, _, h1, ?_, htot, ?_⟩
  · intro k
    rw [h2 k]
    constructor
    · rintro (h | ⟨w, hw, hk⟩)
      · exact Or.inl h
      · rw [mem_ownedKeys] at hk
        exact Or.inr ⟨hk.1, by omega⟩
    · rintro (h | ⟨hk, hlt⟩)
      · exact Or.inl h
      · exact Or.inr ⟨_, hlt, (mem_ownedKeys _ _ _ _ _ _).2 ⟨hk, rfl⟩⟩
  · refine ⟨8 * (S / 8), ?_, ?_⟩
    · have := Nat.div_add_mod S 8
      have h9 : S % 8 ≠ 0 := fun h => h8 (Nat.dvd_of_mod_eq_zero h)
      omega
    · intro w hw
      rw [← Bool.not_eq_true, owns_iff, Nat.mul_div_cancel _ (by omega : 0 < S / 8)]
      omega

/-- Witness of the amended C6: twelve shards. -/
theorem C6_indivisible_count_runs_witness :
    ∃ st1 rsu1, _fill_random_inner_mt 12 id (fun h => h % 12) ((3 : Nat) : Int) St.empty
        (RSU.new 76687 76688) = .ok (st1, rsu1) ∧
      (∀ k, k ∈ st1.hash ↔ k ∈ St.empty.hash ∨
        (k ∈ RSU.outputs 3 (RSU.new 76687 76688) ∧ (fun h => h % 12) (id k) / (12 / 8) < 8)) ∧
      total_num_keys st1.num_keys = (total_num_keys St.empty.num_keys +
        (acceptedKeys id (fun h => h % 12) (12 / 8)
          (RSU.outputs 3 (RSU.new 76687 76688))).length) % 18446744073709551616 ∧
      (∃ idx, idx < 12 ∧ ∀ w, w < 8 → owns (12 / 8) w idx = false) :=
  C6_indivisible_count_runs 12 id (fun h => h % 12) 3 St.empty (RSU.new 76687 76688)
    (by decide) (by decide)

/-! ### The random workload `_fill_random2` -/

theorem inner_step (ic : Nat) (st : St) (rsu : RSU) :
    ∃ st1, _fill_random_inner (ic : Int) st rsu = (st1, RSU.advance ic rsu) ∧
      total_num_keys st1.num_keys = (total_num_keys st.num_keys + ic) % 18446744073709551616 ∧
      (ic = 0 → st1.hash = st.hash) := by
  unfold _fill_random_inner
  rw [fillInnerLoop_eq, Int.toNat_natCast]
  refine ⟨_, rfl, ?_, ?_⟩
  · exact slot_total st.num_keys ic
  · intro h0
    subst h0
    rfl

theorem mt_step (S : Nat) (hasher subidx : Nat → Nat) (ic : Nat) (st : St) (rsu : RSU)
    (h8 : 8 ∣ S) (hidx : ∀ h, subidx h < S) :
    ∃ st1, _fill_random_inner_mt S hasher subidx (ic : Int) st rsu = .ok (st1, RSU.advance ic rsu) ∧
      total_num_keys st1.num_keys = (total_num_keys st.num_keys + ic) % 18446744073709551616 ∧
      (ic = 0 → st1.hash = st.hash) := by
  have hm : ((ic : Int)).toNat = 0 ∨ S / 8 ≠ 0 := Or.inr (modulo_ne_zero S subidx h8 hidx)
  obtain ⟨st1, h1, _, h3⟩ := mt_ok S hasher subidx (ic : Int) st rsu hm
  have htot := mt_total S hasher subidx (ic : Int) st st1 rsu h3
  rw [accepted_all S hasher subidx h8 hidx, outputs_length] at htot
  simp only [Int.toNat_natCast] at h1 htot
  refine ⟨st1, h1, htot, ?_⟩
  intro h0
  subst h0
  have h2 := mt_zero S hasher subidx st rsu
  rw [show ((0 : Nat) : Int) = 0 from rfl, h2] at h1
  injection h1 with h1
  injection h1 with h4 _
  rw [h4]

theorem fill2Loop_ok (parallel : Bool) (S : Nat) (hasher subidx : Nat → Nat) (ic : Nat)
    (hpath : parallel = false ∨ (8 ∣ S ∧ ∀ h, subidx h < S)) : ∀ (n : Nat) (r : Fill2Result),
    ∃ r1, fill2Loop parallel S hasher subidx (ic : Int) n r = .ok r1 ∧
      total_num_keys r1.st.num_keys =
        (total_num_keys r.st.num_keys + n * ic) % 18446744073709551616 ∧
      r1.rsu = RSU.advance (n * ic) r.rsu ∧
      r1.loop_idx = r.loop_idx + n ∧
      r1.inner_cnt = r.inner_cnt ∧
      (ic = 0 → r1.st.hash = r.st.hash) := by
  intro n
  induction n with
  | zero =>
    intro r
    refine ⟨r, rfl, ?_, ?_, by simp, rfl, fun _ => rfl⟩
    · have hlt : total_num_keys r.st.num_keys < 18446744073709551616 := by
        unfold total_num_keys
        rw [foldl_mod_sum (fun i => toU64 (r.st.num_keys i)) _ 0 (by norm_num)]
        exact Nat.mod_lt _ (by norm_num)
      omega
    · simp [RSU.advance]
  | succ n ih =>
    intro r
    have hstep : ∃ st1, (if parallel = true then
          _fill_random_inner_mt S hasher subidx (ic : Int) r.st r.rsu
        else .ok (_fill_random_inner (ic : Int) r.st r.rsu)) = .ok (st1, RSU.advance ic r.rsu) ∧
        total_num_keys st1.num_keys =
          (total_num_keys r.st.num_keys + ic) % 18446744073709551616 ∧
        (ic = 0 → st1.hash = r.st.hash) := by
      rcases hpath with hp | ⟨h8, hidx⟩
      · subst hp
        obtain ⟨st1, h1, h2, h3⟩ := inner_step ic r.st r.rsu
        exact ⟨st1, by simp [h1], h2, h3⟩
      · cases parallel
        · obtain ⟨st1, h1, h2, h3⟩ := inner_step ic r.st r.rsu
          exact ⟨st1, by simp [h1], h2, h3⟩
        · obtain ⟨st1, h1, h2, h3⟩ := mt_step S hasher subidx ic r.st r.rsu h8 hidx
          exact ⟨st1, by simp [h1], h2, h3⟩
    obtain ⟨st1, h1, h2, h3⟩ := hstep
    obtain ⟨r1, g1, g2, g3, g4, g5, g6⟩ := ih
      { st := st1, rsu := RSU.advance ic r.rsu, loop_idx := r.loop_idx + 1,
        inner_cnt := r.inner_cnt,
        printed := r.printed ++ [toInt64 (total_num_keys st1.num_keys)] }
    dsimp only at g2 g3 g4 g5 g6
    refine ⟨r1, ?_, ?_, ?_, ?_, g5, ?_⟩
    · rw [fill2Loop]
      simp only [h1]
      exact g1
    · rw [g2, h2, Nat.succ_mul]
      omega
    · rw [g3, advance_add, Nat.succ_mul, Nat.add_comm]
    · rw [g4]
      push_cast
      ring
    · intro h0
      rw [g6 h0, h3 h0]

theorem total_reset (c : Nat → Int) :
    total_num_keys (fun i => if i < 16 then 0 else c i) = 0 := by
  apply Int.natCast_inj.1
  rw [total_cast]
  have h : (List.range 16).map (fun i => if i < 16 then (0 : Int) else c i) =
      (List.range 16).map (fun _ => (0 : Int)) := by
    apply List.map_congr_left
    intro i hi
    rw [if_pos (List.mem_range.1 hi)]
  rw [h]
  simp

/-- Claim C10: `_fill_random2(cnt, hash)` resets the sixteen counter slots and runs ten
super-steps of `inner_cnt = cnt / 10` keys. For `0 <= cnt < 2^63`, on the single-threaded path
and on the partitioned path when 8 divides the shard count, it completes with `loop_idx = 10`,
a counter total of `10 * (cnt / 10)` and the generator `10 * (cnt / 10)` calls of `next` past
its seeded state. That number is at most `cnt`, equals `cnt` exactly when 10 divides `cnt`,
and for `cnt < 10` the map is left as it was. -/
theorem C10_fill_random2_truncates (parallel : Bool) (S : Nat) (hasher subidx : Nat → Nat)
    (cnt : Nat) (st : St) (hcnt : cnt < 9223372036854775808)
    (hpath : parallel = false ∨ (8 ∣ S ∧ ∀ h, subidx h < S)) :
    ∃ r, _fill_random2 parallel S hasher subidx (cnt : Int) st = .ok r ∧
      r.inner_cnt = ((cnt / 10 : Nat) : Int) ∧
      r.loop_idx = 10 ∧
      total_num_keys r.st.num_keys = 10 * (cnt / 10) ∧
      r.rsu = RSU.advance (10 * (cnt / 10)) (RSU.new 76687 76688) ∧
      10 * (cnt / 10) ≤ cnt ∧
      (10 * (cnt / 10) = cnt ↔ 10 ∣ cnt) ∧
      (cnt < 10 → r.st.hash = st.hash ∧ total_num_keys r.st.num_keys = 0) := by
  have hic : (cnt : Int).tdiv 10 = ((cnt / 10 : Nat) : Int) := (Int.ofNat_tdiv cnt 10).symm
  obtain ⟨r1, g1, g2, g3, g4, g5, g6⟩ := fill2Loop_ok parallel S hasher subidx (cnt / 10) hpath 10
    { st := { st with num_keys := fun i => if i < 16 then 0 else st.num_keys i },
      rsu := RSU.new 76687 76688, loop_idx := 0, inner_cnt := ((cnt / 10 : Nat) : Int),
      printed := [] }
  dsimp only at g2 g3 g4 g5 g6
  rw [total_reset] at g2
  have htot : total_num_keys r1.st.num_keys = 10 * (cnt / 10) := by
    rw [g2]
    omega
  refine ⟨r1, ?_, g5, ?_, htot, g3, by omega, ?_, ?_⟩
  · unfold _fill_random2
    simp only [hic]
    exact g1
  · rw [g4]; norm_num
  · constructor
    · intro h
      exact ⟨cnt / 10, h.symm⟩
    · rintro ⟨k, rfl⟩
      omega
  · intro hlt
    have h0 : cnt / 10 = 0 := by omega
    refine ⟨g6 h0, ?_⟩
    rw [htot, h0]

/-- Witness of C10: 1005 requested keys on the partitioned path with sixteen shards. -/
theorem C10_fill_random2_truncates_witness :
    ∃ r, _fill_random2 true 16 id (fun h => h % 16) ((1005 : Nat) : Int) St.empty = .ok r ∧
      r.inner_cnt = ((1005 / 10 : Nat) : Int) ∧
      r.loop_idx = 10 ∧
      total_num_keys r.st.num_keys = 10 * (1005 / 10) ∧
      r.rsu = RSU.advance (10 * (1005 / 10)) (RSU.new 76687 76688) ∧
      10 * (1005 / 10) ≤ 1005 ∧
      (10 * (1005 / 10) = 1005 ↔ 10 ∣ 1005) ∧
      (1005 < 10 → r.st.hash = St.empty.hash ∧ total_num_keys r.st.num_keys = 0) :=
  C10_fill_random2_truncates true 16 id (fun h => h % 16) 1005 St.empty (by norm_num)
    (Or.inr ⟨by decide, fun h => Nat.mod_lt h (by decide)⟩)

/-! ### The bit length used by the rounding -/

theorem bitLen_spec (fuel : Nat) : ∀ n : Nat, n < 2 ^ fuel →
    n < 2 ^ bitLen fuel n ∧ (n ≠ 0 → 2 ^ (bitLen fuel n - 1) ≤ n) := by
  induction fuel with
  | zero =>
    intro n hn
    have h0 : n = 0 := by simpa using hn
    subst h0
    simp [bitLen]
  | succ fuel ih =>
    intro n hn
    unfold bitLen
    by_cases h0 : n = 0
    · subst h0
      simp
    · rw [if_neg h0]
      have hlt : n / 2 < 2 ^ fuel := by
        rw [Nat.div_lt_iff_lt_mul (by norm_num)]
        rw [Nat.pow_succ] at hn
        exact hn
      obtain ⟨h1, h2⟩ := ih (n / 2) hlt
      constructor
      · rw [Nat.pow_succ]
        omega
      · intro _
        rw [Nat.add_sub_cancel]
        by_cases h3 : n / 2 = 0
        · rw [h3]
          have : bitLen fuel 0 = 0 := by cases fuel <;> simp [bitLen]
          rw [this]
          simp
          omega
        · have h4 := h2 h3
          have h5 : bitLen fuel (n / 2) ≠ 0 := by
            intro h6
            rw [h6] at h1
            simp at h1
            exact h3 h1
          have h6 : bitLen fuel (n / 2) = (bitLen fuel (n / 2) - 1) + 1 := by omega
          rw [h6, Nat.pow_succ]
          omega

theorem bitLen_self (n : Nat) :
    n < 2 ^ bitLen n n ∧ (n ≠ 0 → 2 ^ (bitLen n n - 1) ≤ n) :=
  bitLen_spec n n (Nat.lt_two_pow n)

/-! ### The sampler: one poll -/

theorem poll_threshold (st : MemlogState) (p : Poll) (h : thresholdCond st p.nbytes = true) :
    memlogPoll st p =
      ((if jumpCond st p.nbytes then
          [(Origin.bracket, { count := toInt64 (u64sub p.total 1), bytes := st.nbytes_old })]
        else []) ++
        [(Origin.threshold, { count := toInt64 p.total, bytes := p.nbytes })],
       { nbytes_old_out := p.nbytes, nbytes_old := p.nbytes, last_loop := p.loop_idx }) := by
  unfold memlogPoll
  rw [if_pos h]

theorem poll_threshold_pair (st : MemlogState) (p : Poll)
    (h : thresholdCond st p.nbytes = true) (hj : jumpCond st p.nbytes = true) :
    (memlogPoll st p).1 =
      [(Origin.bracket, { count := toInt64 (u64sub p.total 1), bytes := st.nbytes_old }),
       (Origin.threshold, { count := toInt64 p.total, bytes := p.nbytes })] := by
  rw [poll_threshold st p h, hj]
  rfl

theorem poll_threshold_single (st : MemlogState) (p : Poll)
    (h : thresholdCond st p.nbytes = true) (hj : jumpCond st p.nbytes = false) :
    (memlogPoll st p).1 =
      [(Origin.threshold, { count := toInt64 p.total, bytes := p.nbytes })] := by
  rw [poll_threshold st p h, hj]
  rfl

theorem poll_forced (st : MemlogState) (p : Poll) (h : thresholdCond st p.nbytes = false)
    (hl : p.loop_idx > st.last_loop) :
    memlogPoll st p =
      ([(Origin.loopIndex, { count := toInt64 p.total, bytes := p.nbytes })],
       { nbytes_old_out := p.nbytes, nbytes_old := p.nbytes, last_loop := p.loop_idx }) := by
  unfold memlogPoll
  rw [if_neg (by simp [h]), if_pos hl]

theorem poll_idle (st : MemlogState) (p : Poll) (h : thresholdCond st p.nbytes = false)
    (hl : ¬ p.loop_idx > st.last_loop) :
    memlogPoll st p =
      ([], { nbytes_old_out := st.nbytes_old_out, nbytes_old := p.nbytes,
             last_loop := st.last_loop }) := by
  unfold memlogPoll
  rw [if_neg (by simp [h]), if_neg hl]

set_option maxRecDepth 10000 in
theorem jump_wrapped_eval :
    fdivGt ((18446744073699551616 : Nat) : Int) 100000000 c003 = true := rfl

/-- Claim C7 fails on the code, at the failing input `old = 100000000`, `cur = 90000000`: the
threshold condition holds (a drop of 10%), and although the reading went down the sampler
writes the record of the previous reading as well, for every counter total and loop index. The
difference `nbytes - nbytes_old` of line 300 is unsigned and wraps to `2^64 - 10000000`. -/
theorem C7_drop_emits_pair (total : Nat) (loop last : Int) :
    thresholdCond { nbytes_old_out := 100000000, nbytes_old := 100000000, last_loop := last }
      90000000 = true ∧
    u64sub 90000000 100000000 = 18446744073699551616 ∧
    (memlogPoll { nbytes_old_out := 100000000, nbytes_old := 100000000, last_loop := last }
      { nbytes := 90000000, total := total, loop_idx := loop }).1 =
      [(Origin.bracket, { count := toInt64 (u64sub total 1), bytes := 100000000 }),
       (Origin.threshold, { count := toInt64 total, bytes := 90000000 })] := by
  have h1 : fdivGt (_abs (toInt64 (u64sub 90000000 100000000))) 100000000 c003 = true := rfl
  have h2 := jump_wrapped_eval
  have h3 : u64sub 90000000 100000000 = 18446744073699551616 := rfl
  have hth : thresholdCond
      { nbytes_old_out := 100000000, nbytes_old := 100000000, last_loop := last }
      90000000 = true := by
    show (fdivGt (_abs (toInt64 (u64sub 90000000 100000000))) 100000000 c003 ||
      fdivGt (_abs (toInt64 (u64sub 90000000 100000000))) 100000000 c001) = true
    rw [h1]
    rfl
  have hj : jumpCond
      { nbytes_old_out := 100000000, nbytes_old := 100000000, last_loop := last }
      90000000 = true := by
    show fdivGt ((u64sub 90000000 100000000 : Nat) : Int) 100000000 c003 = true
    rw [h3]
    exact h2
  exact ⟨hth, h3, poll_threshold_pair _ _ hth hj⟩

/-- The scenario of the specification: a rise from 100000000 to 104000000 bytes in one poll
gives the record of the previous reading followed by the record of the current one. -/
theorem memlog_rise_scenario (total : Nat) (loop last : Int) :
    (memlogPoll { nbytes_old_out := 100000000, nbytes_old := 100000000, last_loop := last }
      { nbytes := 104000000, total := total, loop_idx := loop }).1 =
      [(Origin.bracket, { count := toInt64 (u64sub total 1), bytes := 100000000 }),
       (Origin.threshold, { count := toInt64 total, bytes := 104000000 })] := by
  have h1 : fdivGt (_abs (toInt64 (u64sub 104000000 100000000))) 100000000 c003 = true := rfl
  have h2 : fdivGt ((u64sub 104000000 100000000 : Nat) : Int) 100000000 c003 = true := rfl
  have hth : thresholdCond
      { nbytes_old_out := 100000000, nbytes_old := 100000000, last_loop := last }
      104000000 = true := by
    show (fdivGt (_abs (toInt64 (u64sub 104000000 100000000))) 100000000 c003 ||
      fdivGt (_abs (toInt64 (u64sub 104000000 100000000))) 100000000 c001) = true
    rw [h1]
    rfl
  have hj : jumpCond
      { nbytes_old_out := 100000000, nbytes_old := 100000000, last_loop := last }
      104000000 = true := by
    show fdivGt ((u64sub 104000000 100000000 : Nat) : Int) 100000000 c003 = true
    exact h2
  exact poll_threshold_pair _ _ hth hj

/-- Claim C8: in a poll where the threshold condition of lines 297-298 does not hold, a
`loop_idx` above the recorded `last_loop` makes the sampler write exactly one record, with the
current counter total and memory reading, and record the current memory and loop index; with
`loop_idx` not above `last_loop` nothing is written and both are left as they were. -/
theorem C8_forced_sample (st : MemlogState) (p : Poll)
    (hth : thresholdCond st p.nbytes = false) :
    (p.loop_idx > st.last_loop →
      (memlogPoll st p).1 =
        [(Origin.loopIndex, { count := toInt64 p.total, bytes := p.nbytes })] ∧
      (memlogPoll st p).2.last_loop = p.loop_idx ∧
      (memlogPoll st p).2.nbytes_old_out = p.nbytes) ∧
    (¬ p.loop_idx > st.last_loop →
      (memlogPoll st p).1 = [] ∧
      (memlogPoll st p).2.last_loop = st.last_loop ∧
      (memlogPoll st p).2.nbytes_old_out = st.nbytes_old_out) := by
  constructor
  · intro hl
    rw [poll_forced st p hth hl]
    exact ⟨rfl, rfl, rfl⟩
  · intro hl
    rw [poll_idle st p hth hl]
    exact ⟨rfl, rfl, rfl⟩

/-- Witness of C8, the scenario of the specification: the loop index goes from 3 to 4 with the
memory reading unchanged; one record with the current count (400 here) is written. -/
theorem C8_forced_sample_witness :
    thresholdCond { nbytes_old_out := 100000000, nbytes_old := 100000000, last_loop := 3 }
      100000000 = false ∧
    toInt64 400 = 400 ∧
    (memlogPoll { nbytes_old_out := 100000000, nbytes_old := 100000000, last_loop := 3 }
        { nbytes := 100000000, total := 400, loop_idx := 4 }).1 =
      [(Origin.loopIndex, { count := toInt64 400, bytes := 100000000 })] ∧
    (memlogPoll { nbytes_old_out := 100000000, nbytes_old := 100000000, last_loop := 3 }
        { nbytes := 100000000, total := 400, loop_idx := 4 }).2.last_loop = 4 ∧
    (memlogPoll { nbytes_old_out := 100000000, nbytes_old := 100000000, last_loop := 3 }
        { nbytes := 100000000, total := 400, loop_idx := 4 }).2.nbytes_old_out = 100000000 :=
  ⟨rfl, rfl,
    (C8_forced_sample { nbytes_old_out := 100000000, nbytes_old := 100000000, last_loop := 3 }
      { nbytes := 100000000, total := 400, loop_idx := 4 } rfl).1 (by decide)⟩

/-! ### The sampler: traces -/

set_option maxRecDepth 10000

theorem memlogLoop_append (xs : List Poll) : ∀ (ys : List Poll) (st : MemlogState),
    memlogLoop (xs ++ ys) st =
      ((memlogLoop xs st).1 ++ (memlogLoop ys (memlogLoop xs st).2).1,
       (memlogLoop ys (memlogLoop xs st).2).2) := by
  induction xs with
  | nil => intro ys st; simp [memlogLoop]
  | cons x xs ih =>
    intro ys st
    show memlogLoop (x :: (xs ++ ys)) st = _
    rw [memlogLoop, ih]
    simp only [memlogLoop, List.append_assoc]

theorem memlogLoop_single (p : Poll) (st : MemlogState) :
    memlogLoop [p] st = memlogPoll st p := by
  simp [memlogLoop]

theorem poll_last (st : MemlogState) (p : Poll) :
    ((memlogPoll st p).1 = [] ∧ (memlogPoll st p).2.nbytes_old_out = st.nbytes_old_out) ∨
    (∃ ys o c, (memlogPoll st p).1 = ys ++ [(o, { count := c, bytes := p.nbytes })] ∧
      (memlogPoll st p).2.nbytes_old_out = p.nbytes) := by
  by_cases hth : thresholdCond st p.nbytes = true
  · right
    rw [poll_threshold st p hth]
    exact ⟨_, _, _, rfl, rfl⟩
  · have hth2 : thresholdCond st p.nbytes = false := by simpa using hth
    by_cases hl : p.loop_idx > st.last_loop
    · right
      rw [poll_forced st p hth2 hl]
      exact ⟨[], _, _, rfl, rfl⟩
    · left
      rw [poll_idle st p hth2 hl]
      exact ⟨rfl, rfl⟩

theorem loop_last (pre : List Poll) : ∀ (s0 : MemlogState) (ys : List (Origin × Sample))
    (r : Origin × Sample), (memlogLoop pre s0).1 = ys ++ [r] →
    r.2.bytes = (memlogLoop pre s0).2.nbytes_old_out := by
  induction pre using List.reverseRecOn with
  | nil =>
    intro s0 ys r h
    simp [memlogLoop] at h
  | append_singleton pre q ih =>
    intro s0 ys r h
    rw [memlogLoop_append, memlogLoop_single] at h ⊢
    dsimp only at h ⊢
    rcases poll_last (memlogLoop pre s0).2 q with ⟨h1, h2⟩ | ⟨zs, o, c, h1, h2⟩
    · rw [h1, List.append_nil] at h
      rw [h2]
      exact ih s0 ys r h
    · rw [h1, ← List.append_assoc] at h
      have h3 := (List.append_inj' h rfl).2
      rw [h2]
      have h4 : r = (o, { count := c, bytes := q.nbytes }) := by
        simpa using h3.symm
      rw [h4]

theorem u64sub_self (n : Nat) : u64sub n n = 0 := by
  unfold u64sub
  omega

theorem coarse_ne (st : MemlogState) (n : Nat) (h : coarseCond st n = true) :
    n ≠ st.nbytes_old_out := by
  intro heq
  subst heq
  unfold coarseCond at h
  rw [u64sub_self] at h
  have h0 : _abs (toInt64 0) = 0 := rfl
  rw [h0] at h
  unfold fdivGt at h
  split at h
  · simp at h
  · simp at h

theorem toInt64_pred_ne (n : Nat) : toInt64 (u64sub n 1) ≠ toInt64 n := by
  unfold toInt64 u64sub
  have h1 : (1 : Nat) % 18446744073709551616 = 1 := by norm_num
  rw [h1]
  split <;> split <;> omega

/-- Counterexample to claim C9 as stated: with both readings before the loop at 1000 bytes and
the polls 991, 983, 1000 (counter total 0 and `loop_idx` 0 throughout), the first two polls
write nothing and the third passes the 1% test against the previous reading 983 only. Its
record, written by the threshold branch, repeats the record before it. -/
theorem C9_counterexample :
    memlog 1000 1000 [{ nbytes := 991, total := 0, loop_idx := 0 },
        { nbytes := 983, total := 0, loop_idx := 0 },
        { nbytes := 1000, total := 0, loop_idx := 0 }] =
      [(Origin.initial, { count := 0, bytes := 1000 }),
       (Origin.threshold, { count := 0, bytes := 1000 })] ∧
    ¬ AdjacentDistinct (memlog 1000 1000 [{ nbytes := 991, total := 0, loop_idx := 0 },
        { nbytes := 983, total := 0, loop_idx := 0 },
        { nbytes := 1000, total := 0, loop_idx := 0 }]) := by
  have h : memlog 1000 1000 [{ nbytes := 991, total := 0, loop_idx := 0 },
        { nbytes := 983, total := 0, loop_idx := 0 },
        { nbytes := 1000, total := 0, loop_idx := 0 }] =
      [(Origin.initial, { count := 0, bytes := 1000 }),
       (Origin.threshold, { count := 0, bytes := 1000 })] := by decide
  refine ⟨h, ?_⟩
  rw [h]
  simp [AdjacentDistinct]

/-- Claim C9, amended: in the trace of `memlog`, the record written by the threshold branch
(line 302) in a poll whose reading differs from the last emitted value by more than 3% (the
first disjunct of line 297) differs from the record before it, provided that record is not the
one written before the loop. -/
theorem C9_coarse_record_differs (first second : Nat) (pre : List Poll) (p : Poll)
    (xs : List (Origin × Sample)) (r1 r2 : Origin × Sample)
    (hcoarse : coarseCond (memlogLoop pre (memlogInit first second)).2 p.nbytes = true)
    (htrace : memlog first second (pre ++ [p]) = xs ++ [r1, r2])
    (hr1 : r1.1 ≠ Origin.initial) :
    r2 = (Origin.threshold, { count := toInt64 p.total, bytes := p.nbytes }) ∧ r1.2 ≠ r2.2 := by
  have hth : thresholdCond (memlogLoop pre (memlogInit first second)).2 p.nbytes = true := by
    unfold thresholdCond
    rw [hcoarse]
    rfl
  unfold memlog at htrace
  rw [memlogLoop_append, memlogLoop_single] at htrace
  dsimp only at htrace
  by_cases hj : jumpCond (memlogLoop pre (memlogInit first second)).2 p.nbytes = true
  · rw [poll_threshold_pair _ _ hth hj, ← List.cons_append] at htrace
    have h3 := (List.append_inj' htrace rfl).2
    have h4 : r1 = (Origin.bracket, Sample.mk (toInt64 (u64sub p.total 1))
          (memlogLoop pre (memlogInit first second)).2.nbytes_old) ∧
        r2 = (Origin.threshold, Sample.mk (toInt64 p.total) p.nbytes) := by
      simpa [eq_comm] using h3
    rw [h4.1, h4.2]
    refine ⟨rfl, ?_⟩
    intro h5
    simp only [Sample.mk.injEq] at h5
    exact toInt64_pred_ne p.total h5.1
  · have hj2 : jumpCond (memlogLoop pre (memlogInit first second)).2 p.nbytes = false := by
      simpa using hj
    rw [poll_threshold_single _ _ hth hj2, ← List.cons_append] at htrace
    have hx : xs ++ [r1, r2] = (xs ++ [r1]) ++ [r2] := by simp
    rw [hx] at htrace
    obtain ⟨h3, h4⟩ := List.append_inj' htrace rfl
    have h5 : r2 = (Origin.threshold, { count := toInt64 p.total, bytes := p.nbytes }) := by
      simpa [eq_comm] using h4
    refine ⟨h5, ?_⟩
    rcases List.eq_nil_or_concat (memlogLoop pre (memlogInit first second)).1 with h6 | ⟨ys, r, h6⟩
    · rw [h6] at h3
      have h7 : xs = [] ∧ r1 = (Origin.initial, { count := 0, bytes := second }) := by
        rcases xs with _ | ⟨x, xs⟩
        · simpa [eq_comm] using h3
        · simp at h3
      rw [h7.2] at hr1
      exact absurd rfl hr1
    · rw [List.concat_eq_append] at h6
      have h8 := loop_last pre (memlogInit first second) ys r h6
      rw [h6, ← List.cons_append] at h3
      have h9 : r = r1 := by
        have := (List.append_inj' h3 rfl).2
        simpa using this
      subst h9
      rw [h5]
      intro h10
      have h11 : r.2.bytes = p.nbytes := congrArg Sample.bytes h10
      rw [h8] at h11
      exact coarse_ne _ _ hcoarse h11.symm

/-- Witness of the amended C9: after both initial readings at 1000 bytes and the polls 1040,
1050, 1060, 1070, the poll 1080 passes the 3% test against the 1040 last written and its record
differs from the record of the poll 1040 before it. -/
theorem C9_coarse_record_differs_witness :
    coarseCond (memlogLoop samplePolls (memlogInit 1000 1000)).2 samplePoll.nbytes = true ∧
    memlog 1000 1000 (samplePolls ++ [samplePoll]) =
      [(Origin.initial, { count := 0, bytes := 1000 }),
       (Origin.bracket, { count := 4, bytes := 1000 })] ++
      [(Origin.threshold, { count := 5, bytes := 1040 }),
       (Origin.threshold, { count := 7, bytes := 1080 })] ∧
    ((Origin.threshold, ({ count := 7, bytes := 1080 } : Sample)) =
        (Origin.threshold, { count := toInt64 samplePoll.total, bytes := samplePoll.nbytes }) ∧
      (Origin.threshold, ({ count := 5, bytes := 1040 } : Sample)).2 ≠
        (Origin.threshold, ({ count := 7, bytes := 1080 } : Sample)).2) :=
  ⟨by decide, by decide,
    C9_coarse_record_differs 1000 1000 samplePolls samplePoll
      [(Origin.initial, { count := 0, bytes := 1000 }),
       (Origin.bracket, { count := 4, bytes := 1000 })]
      (Origin.threshold, { count := 5, bytes := 1040 })
      (Origin.threshold, { count := 7, bytes := 1080 })
      (by decide) (by decide) (by decide)⟩

/-- The record after the one written before the loop can repeat it: the two readings before the
loop are separate, here 1000 and 1050, and a poll of 1050 passes the 3% test against 1000. -/
theorem memlog_initial_repeat :
    memlog 1000 1050 [{ nbytes := 1050, total := 0, loop_idx := 0 }] =
      [(Origin.initial, { count := 0, bytes := 1050 }),
       (Origin.threshold, { count := 0, bytes := 1050 })] := by
  decide

/-- The record of the previous reading (line 301) can repeat the record before it: a forced
record at count 5 and 1000 bytes, then one more key and a jump to 1040 bytes. -/
theorem memlog_bracket_repeat :
    memlog 1000 1000 [{ nbytes := 1000, total := 5, loop_idx := 1 },
        { nbytes := 1040, total := 6, loop_idx := 1 }] =
      [(Origin.initial, { count := 0, bytes := 1000 }),
       (Origin.loopIndex, { count := 5, bytes := 1000 }),
       (Origin.bracket, { count := 5, bytes := 1000 }),
       (Origin.threshold, { count := 6, bytes := 1040 })] := by
  decide

end Bench
